import Mathlib

/-!
Verification of the maze-generation and pursuit program (`ai.py`).

The Python source is shallowly embedded: grids are lists of rows of
characters, Python strings are lists of characters, fallible functions
(those that can raise) return `Option`, and the global random generator is
modelled by an explicit stream `rs : ℕ → ℕ` of choices together with a
running index, so that theorems quantify over every possible sequence of
random draws.  Recursion in the source (the maze carver and the BFS loop)
is embedded with an explicit fuel parameter; the fuel supplied by the
top-level wrappers is large enough that it is never exhausted on the
executions the theorems evaluate.
-/

set_option maxHeartbeats 1000000

/-- A position is an `(x, y)` pair: `x` is the column, `y` the row. -/
abbrev Pos : Type := ℕ × ℕ

/-- A grid is a list of rows, each row a list of cells. -/
abbrev Grid : Type := List (List Char)

/-- Cell lookup `grid[y][x]`.  The Python source only indexes after an
explicit bounds check, so the default returned out of range is irrelevant;
`'#'` is chosen so that out-of-range cells read as walls. -/
def getCell (g : Grid) (x y : ℕ) : Char := (g.getD y []).getD x '#'

/-- Cell update `grid[y][x] = c` (out-of-range updates are no-ops, and the
source never performs one). -/
def setCell (g : Grid) (x y : ℕ) (c : Char) : Grid :=
  g.set y ((g.getD y []).set x c)

/-- `len(grid)`: the number of rows. -/
def gridRows (g : Grid) : ℕ := g.length

/-- `len(grid[0])`: the number of columns (0 for an empty grid; the source
only evaluates it on nonempty grids). -/
def gridCols (g : Grid) : ℕ := (g.headD []).length

/-- The grid is rectangular with `n` rows and `m` columns. -/
def Rect (n m : ℕ) (g : Grid) : Prop :=
  g.length = n ∧ ∀ r ∈ g, r.length = m

instance (n m : ℕ) (g : Grid) : Decidable (Rect n m g) := by
  unfold Rect; infer_instance

/-! ### Serialization (`parse_grid`, `grid_to_string`)

Python strings are embedded as `List Char`. -/

/-- Python `str.strip()` whitespace predicate (ASCII part, which covers
every character a grid can contain). -/
def isPySpace (c : Char) : Bool :=
  c = ' ' || c = '\t' || c = '\n' || c = '\r' || c = '\x0b' || c = '\x0c'

/-- Python `str.strip()`: drop leading and trailing whitespace. -/
def pyStrip (s : List Char) : List Char :=
  ((s.dropWhile isPySpace).reverse.dropWhile isPySpace).reverse

/-- Python `str.split('\n')` (note `"".split('\n') == [""]`). -/
def splitNl : List Char → List (List Char)
  | [] => [[]]
  | c :: cs =>
    if c = '\n' then [] :: splitNl cs
    else
      match splitNl cs with
      | r :: rs => (c :: r) :: rs
      | [] => [[c]]

/-- `parse_grid`: `[list(line) for line in grid.strip().split('\n')]`
(`list(line)` is the identity in this embedding). -/
def parse_grid (s : List Char) : Grid := splitNl (pyStrip s)

/-- `grid_to_string`: `'\n'.join(''.join(line) for line in grid)`. -/
def grid_to_string (g : Grid) : List Char := List.intercalate ['\n'] g

/-! ### Locating characters and Manhattan distance -/

/-- Row scan used by `get_character_coordinates`: find the first row
containing `c` and return `(row.index(c), y)`. -/
def findInRows : List (List Char) → Char → ℕ → Option Pos
  | [], _, _ => none
  | row :: rest, c, y =>
    if c ∈ row then some (row.indexOf c, y) else findInRows rest c (y + 1)

/-- `get_character_coordinates(grid, char)`: `(x, y)` of the first
occurrence of `char`, or `None`. -/
def get_character_coordinates (g : Grid) (c : Char) : Option Pos :=
  findInRows g c 0

/-- `calculate_distance`: Manhattan distance between two characters;
`none` models the `ValueError` raised when either is absent. -/
def calculate_distance (g : Grid) (c1 c2 : Char) : Option ℤ :=
  match get_character_coordinates g c1, get_character_coordinates g c2 with
  | some p1, some p2 =>
      some ((((p1.1 : ℤ) - p2.1).natAbs : ℤ) + (((p1.2 : ℤ) - p2.2).natAbs : ℤ))
  | _, _ => none

/-! ### Move enumeration (`generate_possible_moves`) -/

/-- The four neighbour offsets of `generate_possible_moves`, in source
order: up, down, left, right (as `(x, y)` targets over ℤ). -/
def neighborCandidates (x y : ℕ) : List (ℤ × ℤ) :=
  [((x : ℤ), (y : ℤ) - 1), ((x : ℤ), (y : ℤ) + 1),
   ((x : ℤ) - 1, (y : ℤ)), ((x : ℤ) + 1, (y : ℤ))]

/-- The bounds-and-openness filter of `generate_possible_moves`:
`0 <= new_y < len(grid) and 0 <= new_x < len(grid[0]) and grid[new_y][new_x] == ' '`. -/
def isValidMove (g : Grid) (p : ℤ × ℤ) : Bool :=
  decide (0 ≤ p.2) && decide (p.2 < (gridRows g : ℤ)) &&
  decide (0 ≤ p.1) && decide (p.1 < (gridCols g : ℤ)) &&
  (getCell g p.1.toNat p.2.toNat == ' ')

/-- `generate_possible_moves`: one new grid per valid neighbour, clearing
the old cell and writing `c` at the new one.  `none` models the
`ValueError` when `c` is absent. -/
def generate_possible_moves (g : Grid) (c : Char) : Option (List Grid) :=
  match get_character_coordinates g c with
  | none => none
  | some (x, y) =>
    let valid := (neighborCandidates x y).filter (isValidMove g)
    some (valid.map fun p => setCell (setCell g x y ' ') p.1.toNat p.2.toNat c)

/-! ### Best-move selection (`find_best_move`, `make_move`) -/

/-- `min(distances, key=lambda x: x[1])[0]`: Python's `min` returns the
first element attaining the minimum.  The empty case models the error
raised in the source (`min` of an empty sequence). -/
def find_best_move {α : Type} (distances : List (α × ℤ)) : Option α :=
  match distances with
  | [] => none
  | d :: rest => some (rest.foldl (fun best p => if p.2 < best.2 then p else best) d).1

/-- `calculate_distances`: pair every candidate grid with its Manhattan
distance; `none` if any lookup raises. -/
def calculate_distances (grids : List Grid) (c1 c2 : Char) :
    Option (List (Grid × ℤ)) :=
  grids.mapM fun g => (calculate_distance g c1 c2).map (fun d => (g, d))

/-- `make_move`: parse, enumerate moves, score by Manhattan distance, pick
the best, render.  Any error on the way propagates as `none`. -/
def make_move (gs : List Char) (c1 c2 : Char) : Option (List Char) :=
  let grid := parse_grid gs
  match generate_possible_moves grid c1 with
  | none => none
  | some moves =>
    match calculate_distances moves c1 c2 with
    | none => none
    | some dists => (find_best_move dists).map grid_to_string

/-! ### Shortest-path distance (`calculate_path_distance`)

The BFS loop is embedded with a fuel parameter; `calculate_path_distance`
supplies fuel strictly larger than `5 * cells + 1`, an upper bound on the
loop's termination measure, so the fuel-exhausted branch is unreachable. -/

/-- The four BFS offsets, in source order: `[(-1,0),(1,0),(0,-1),(0,1)]`
as `(dx, dy)`. -/
def bfsDirections : List (ℤ × ℤ) := [(-1, 0), (1, 0), (0, -1), (0, 1)]

/-- One pass over the direction list for the dequeued cell `(x, y)` at
depth `d`: each in-bounds, unvisited, traversable neighbour (open, or the
target cell) is marked visited and appended to the new-entry list. -/
def pushNbrs (g : Grid) (t : Pos) (x y d : ℕ) :
    List (ℤ × ℤ) → Finset Pos → List (Pos × ℕ) → Finset Pos × List (Pos × ℕ)
  | [], vis, acc => (vis, acc)
  | (dx, dy) :: rest, vis, acc =>
    let nx := (x : ℤ) + dx
    let ny := (y : ℤ) + dy
    if 0 ≤ ny ∧ ny < (gridRows g : ℤ) ∧ 0 ≤ nx ∧ nx < (gridCols g : ℤ) ∧
        (nx.toNat, ny.toNat) ∉ vis ∧
        (getCell g nx.toNat ny.toNat = ' ' ∨ (nx.toNat, ny.toNat) = t)
    then pushNbrs g t x y d rest (insert (nx.toNat, ny.toNat) vis)
        (acc ++ [((nx.toNat, ny.toNat), d + 1)])
    else pushNbrs g t x y d rest vis acc

/-- The BFS while-loop: dequeue `(p, d)`; return `d` if `p` is the target,
otherwise enqueue the fresh neighbours and continue.  An empty queue (or
exhausted fuel, which never happens with the fuel supplied) yields `-1`. -/
def bfsLoop (g : Grid) (t : Pos) : ℕ → List (Pos × ℕ) → Finset Pos → ℤ
  | 0, _, _ => -1
  | _ + 1, [], _ => -1
  | f + 1, (p, d) :: rest, vis =>
    if p = t then (d : ℤ)
    else
      let s := pushNbrs g t p.1 p.2 d bfsDirections vis []
      bfsLoop g t f (rest ++ s.2) s.1

/-- `calculate_path_distance`: BFS from `char1`'s cell toward `char2`'s
cell; `-1` when no path exists, `none` models the `ValueError` when either
character is absent. -/
def calculate_path_distance (g : Grid) (c1 c2 : Char) : Option ℤ :=
  match get_character_coordinates g c1, get_character_coordinates g c2 with
  | some s, some t =>
      some (bfsLoop g t (5 * (gridCols g * gridRows g) + 2) [(s, 0)] {s})
  | _, _ => none

/-- `calculate_path_distances`: pair candidate grids with their BFS
distances. -/
def calculate_path_distances (grids : List Grid) (c1 c2 : Char) :
    Option (List (Grid × ℤ)) :=
  grids.mapM fun g => (calculate_path_distance g c1 c2).map (fun d => (g, d))

/-- `make_smart_move`: like `make_move` but scoring candidates with the
BFS path distance. -/
def make_smart_move (gs : List Char) (c1 c2 : Char) : Option (List Char) :=
  let grid := parse_grid gs
  match generate_possible_moves grid c1 with
  | none => none
  | some moves =>
    match calculate_path_distances moves c1 c2 with
    | none => none
    | some dists => (find_best_move dists).map grid_to_string

/-! ### Maze generation (`generate_maze`)

`random.shuffle` is modelled by indexing into the list of all permutations
of the direction list with the next stream value; `random.choice` by
indexing into the choice list.  The recursive carver takes fuel that
bounds the total number of steps; exhausting it merely stops carving
early (the wrappers below supply more than enough for any run the
theorems evaluate, and every property proved is invariant under early
stopping). -/

/-- The carver's direction list `[(0,2),(0,-2),(2,0),(-2,0)]` as
`(dx, dy)`. -/
def carveDirections : List (ℤ × ℤ) := [(0, 2), (0, -2), (2, 0), (-2, 0)]

/-- All ways of inserting `a` into a list (structurally recursive so that
the kernel can evaluate it). -/
def inserts {α : Type} (a : α) : List α → List (List α)
  | [] => [[a]]
  | x :: xs => (a :: x :: xs) :: (inserts a xs).map (fun l => x :: l)

/-- All permutations of a list, structurally recursively. -/
def permsOf {α : Type} : List α → List (List α)
  | [] => [[]]
  | x :: xs => (permsOf xs).flatMap (inserts x)

/-- `random.shuffle(directions)`: the stream value selects one of the 24
permutations of the direction list. -/
def shuffled (r : ℕ) : List (ℤ × ℤ) :=
  (permsOf carveDirections).getD (r % (permsOf carveDirections).length)
    carveDirections

/-- `random.choice(lst)`: the stream value selects an element. -/
def pyChoice (l : List ℕ) (r : ℕ) : ℕ := l.getD (r % l.length) 0

/-- Python `range(1, b, 2)`: the odd numbers below `b`. -/
def oddRange (b : ℕ) : List ℕ := List.range' 1 (b / 2) 2

/-- The body of `carve_passages`: process the (shuffled) direction list of
the cell `(x, y)`.  For each direction whose two-step destination is
strictly inside the border and still a wall, open the destination and the
intermediate cell, recurse from the destination (with a freshly shuffled
direction list), and continue with the remaining directions.  `k` is the
random-stream index, `v` the number of lattice cells visited so far. -/
def carveD (rs : ℕ → ℕ) (n m : ℕ) :
    ℕ → ℕ → ℕ → List (ℤ × ℤ) → Grid → ℕ → ℕ → Grid × ℕ × ℕ
  | 0, _, _, _, g, k, v => (g, k, v)
  | _ + 1, _, _, [], g, k, v => (g, k, v)
  | f + 1, x, y, (dx, dy) :: rest, g, k, v =>
    let nx := (x : ℤ) + dx
    let ny := (y : ℤ) + dy
    if 0 < ny ∧ ny < (n : ℤ) - 1 ∧ 0 < nx ∧ nx < (m : ℤ) - 1 ∧
        getCell g nx.toNat ny.toNat = '#'
    then
      let g2 := setCell (setCell g nx.toNat ny.toNat ' ')
        ((x : ℤ) + dx / 2).toNat ((y : ℤ) + dy / 2).toNat ' '
      let r := carveD rs n m f nx.toNat ny.toNat (shuffled (rs k)) g2 (k + 1) (v + 1)
      carveD rs n m f x y rest r.1 r.2.1 r.2.2
    else carveD rs n m f x y rest g k v

/-- `carve_passages(x, y, grid)`: shuffle the directions (consuming one
stream value) and process them. -/
def carve_passages (rs : ℕ → ℕ) (n m fuel x y : ℕ) (g : Grid) (k v : ℕ) :
    Grid × ℕ × ℕ :=
  carveD rs n m fuel x y (shuffled (rs k)) g (k + 1) v

/-- `initialize_grid()`: an `n × m` grid of walls. -/
def initialize_grid (n m : ℕ) : Grid := List.replicate n (List.replicate m '#')

/-- `generate_maze(n, m)`: initialize, open a random start cell at odd
coordinates, and carve.  Returns the grid together with the number of
lattice cells visited by the carving (the nodes of the carving spanning
tree), an observer the theorems about the spanning-tree property use. -/
def generate_maze (n m : ℕ) (rs : ℕ → ℕ) : Grid × ℕ :=
  let start_x := pyChoice (oddRange m) (rs 0)
  let start_y := pyChoice (oddRange n) (rs 1)
  let g0 := setCell (initialize_grid n m) start_x start_y ' '
  let r := carve_passages rs n m (5 * (n * m) + 5) start_x start_y g0 2 1
  (r.1, r.2.2)

/-! ## Basic lemmas about the grid model -/

theorem length_setCell (g : Grid) (x y : ℕ) (c : Char) :
    (setCell g x y c).length = g.length := by
  simp [setCell]

theorem getD_set_self {α : Type} (l : List α) (i : ℕ) (a d : α) (h : i < l.length) :
    (l.set i a).getD i d = a := by
  induction l generalizing i with
  | nil => simp at h
  | cons b t ih =>
    cases i with
    | zero => rfl
    | succ j => simpa using ih j (by simpa using h)

theorem getD_set_ne {α : Type} (l : List α) {i j : ℕ} (a : α) (d : α) (h : i ≠ j) :
    (l.set i a).getD j d = l.getD j d := by
  induction l generalizing i j with
  | nil => simp
  | cons b t ih =>
    cases i with
    | zero =>
      cases j with
      | zero => exact absurd rfl h
      | succ j' => rfl
    | succ i' =>
      cases j with
      | zero => rfl
      | succ j' =>
        have : i' ≠ j' := fun hc => h (by simp [hc])
        simpa using ih this

theorem getCell_setCell_self (g : Grid) (x y : ℕ) (c : Char)
    (hy : y < g.length) (hx : x < (g.getD y []).length) :
    getCell (setCell g x y c) x y = c := by
  unfold getCell setCell
  rw [getD_set_self _ _ _ _ hy]
  exact getD_set_self _ _ _ _ hx

theorem getCell_setCell_ne (g : Grid) (x y x' y' : ℕ) (c : Char)
    (h : ¬(x' = x ∧ y' = y)) :
    getCell (setCell g x y c) x' y' = getCell g x' y' := by
  unfold getCell setCell
  by_cases hy : y' = y
  · subst hy
    have hx : x ≠ x' := fun hc => h ⟨hc.symm, rfl⟩
    by_cases hylen : y' < g.length
    · rw [getD_set_self _ _ _ _ hylen, getD_set_ne _ _ _ hx]
    · rw [List.set_eq_of_length_le (by omega)]
  · rw [getD_set_ne _ _ _ (fun hc => hy hc.symm)]

theorem rect_getD_length {n m : ℕ} {g : Grid} (h : Rect n m g) {y : ℕ} (hy : y < n) :
    (g.getD y []).length = m := by
  obtain ⟨hlen, hrows⟩ := h
  subst hlen
  induction g generalizing y with
  | nil => simp at hy
  | cons r t ih =>
    cases y with
    | zero => exact hrows r (by simp)
    | succ y' =>
      exact ih (fun r hr => hrows r (by simp [hr])) (by simpa using hy)

theorem Rect.setCell_pres {n m : ℕ} {g : Grid} (h : Rect n m g) (x y : ℕ) (c : Char) :
    Rect n m (setCell g x y c) := by
  obtain ⟨hlen, hrows⟩ := h
  refine ⟨by simp [setCell, hlen], ?_⟩
  intro r hr
  by_cases hy : y < g.length
  · rcases List.mem_or_eq_of_mem_set hr with hold | hnew
    · exact hrows r hold
    · subst hnew
      rw [List.length_set]
      exact rect_getD_length ⟨hlen, hrows⟩ (by omega)
  · unfold setCell at hr
    rw [List.set_eq_of_length_le (by omega)] at hr
    exact hrows r hr

/-- An in-range `getD` is a member of the list. -/
theorem getD_mem_of_lt {α : Type} (l : List α) (i : ℕ) (d : α) (h : i < l.length) :
    l.getD i d ∈ l := by
  induction l generalizing i with
  | nil => simp at h
  | cons a t ih =>
    cases i with
    | zero => simp
    | succ j => simpa using Or.inr (ih j (by simpa using h))

/-! ## Serialization lemmas (for the parse/render round trip) -/

/-- Every cell of a grid is one of the four glyphs `#`, space, `P`, `O`. -/
def WellFormed (g : Grid) : Prop :=
  ∀ r ∈ g, ∀ c ∈ r, c = '#' ∨ c = ' ' ∨ c = 'P' ∨ c = 'O'

instance (g : Grid) : Decidable (WellFormed g) := by
  unfold WellFormed; infer_instance

theorem intercalate_nil (s : List Char) :
    List.intercalate s ([] : List (List Char)) = [] := rfl

theorem intercalate_single (s a : List Char) : List.intercalate s [a] = a := by
  simp [List.intercalate]

theorem intercalate_cons₂ (s a b : List Char) (t : List (List Char)) :
    List.intercalate s (a :: b :: t) = a ++ s ++ List.intercalate s (b :: t) := by
  simp [List.intercalate, List.intersperse_cons₂]

theorem splitNl_cons_ne (c : Char) (cs : List Char) (hc : ¬c = '\n') :
    splitNl (c :: cs) =
      match splitNl cs with
      | r :: rs => (c :: r) :: rs
      | [] => [[c]] := by
  simp only [splitNl, if_neg hc]

theorem splitNl_no_nl (r : List Char) (h : '\n' ∉ r) : splitNl r = [r] := by
  induction r with
  | nil => rfl
  | cons c cs ih =>
    have hc : ¬c = '\n' := fun hc => h (by simp [hc])
    have hcs : '\n' ∉ cs := fun hm => h (by simp [hm])
    simp only [splitNl, if_neg hc, ih hcs]

theorem splitNl_append_nl (r s : List Char) (h : '\n' ∉ r) :
    splitNl (r ++ '\n' :: s) = r :: splitNl s := by
  induction r with
  | nil => simp [splitNl]
  | cons c cs ih =>
    have hc : ¬c = '\n' := fun hc => h (by simp [hc])
    have hcs : '\n' ∉ cs := fun hm => h (by simp [hm])
    rw [List.cons_append, splitNl_cons_ne c _ hc, ih hcs]

theorem splitNl_intercalate (rows : List (List Char))
    (h : ∀ r ∈ rows, '\n' ∉ r) (hne : rows ≠ []) :
    splitNl (List.intercalate ['\n'] rows) = rows := by
  induction rows with
  | nil => exact absurd rfl hne
  | cons a t ih =>
    cases t with
    | nil => rw [intercalate_single]; exact splitNl_no_nl a (h a (by simp))
    | cons b t' =>
      rw [intercalate_cons₂]
      have ha : '\n' ∉ a := h a (by simp)
      have : a ++ ['\n'] ++ List.intercalate ['\n'] (b :: t')
          = a ++ '\n' :: List.intercalate ['\n'] (b :: t') := by simp
      rw [this, splitNl_append_nl _ _ ha,
        ih (fun r hr => h r (by simp [hr])) (by simp)]

theorem dropWhile_eq_self_of_head {p : Char → Bool} {l : List Char}
    (h : ∀ c, l.head? = some c → p c = false) : l.dropWhile p = l := by
  cases l with
  | nil => rfl
  | cons c cs => simp [List.dropWhile_cons, h c rfl]

theorem pyStrip_eq_self {s : List Char}
    (h1 : ∀ c, s.head? = some c → isPySpace c = false)
    (h2 : ∀ c, s.getLast? = some c → isPySpace c = false) : pyStrip s = s := by
  unfold pyStrip
  rw [dropWhile_eq_self_of_head h1]
  rw [dropWhile_eq_self_of_head (by
    intro c hc
    rw [List.head?_reverse] at hc
    exact h2 c hc)]
  exact List.reverse_reverse s

theorem getLast?_intercalate (rows : List (List Char)) (hne : rows ≠ [])
    (hlast : rows.getLast hne ≠ []) :
    (List.intercalate ['\n'] rows).getLast? = (rows.getLast hne).getLast? := by
  induction rows with
  | nil => exact absurd rfl hne
  | cons a t ih =>
    cases t with
    | nil => rw [intercalate_single]; rfl
    | cons b t' =>
      have hne' : (b :: t') ≠ ([] : List (List Char)) := by simp
      have hlasteq : (a :: b :: t').getLast hne = (b :: t').getLast hne' :=
        List.getLast_cons hne'
      have hlast' : (b :: t').getLast hne' ≠ [] := by rw [← hlasteq]; exact hlast
      have hIH := ih hne' hlast'
      have hsome : ((b :: t').getLast hne').getLast?.isSome :=
        List.getLast?_isSome.mpr hlast'
      obtain ⟨c, hc⟩ := Option.isSome_iff_exists.mp hsome
      rw [intercalate_cons₂, List.getLast?_append, hIH, hlasteq, hc]
      rfl

theorem getD_getLast {α : Type} (l : List α) (d : α) (hne : l ≠ []) :
    l.getD (l.length - 1) d = l.getLast hne := by
  induction l with
  | nil => exact absurd rfl hne
  | cons a t ih =>
    cases t with
    | nil => rfl
    | cons b t' =>
      have : (a :: b :: t').length - 1 = (b :: t').length - 1 + 1 := by
        simp [Nat.succ_sub_one]
      rw [this]
      simpa [List.getLast_cons] using ih (by simp)

theorem head?_intercalate (rows : List (List Char)) (hne : rows ≠ [])
    (hh : rows.head hne ≠ []) :
    (List.intercalate ['\n'] rows).head? = (rows.head hne).head? := by
  cases rows with
  | nil => exact absurd rfl hne
  | cons a t =>
    cases t with
    | nil => rw [intercalate_single]; rfl
    | cons b t' =>
      have ha : a ≠ [] := hh
      obtain ⟨c, hc⟩ := Option.isSome_iff_exists.mp (List.head?_isSome.mpr ha)
      rw [intercalate_cons₂, List.append_assoc, List.head?_append]
      simp only [List.head_cons] at hh ⊢
      rw [hc]
      rfl

/-- A non-space glyph is not Python whitespace. -/
theorem glyph_not_space {c : Char}
    (h : c = '#' ∨ c = ' ' ∨ c = 'P' ∨ c = 'O') (hs : c ≠ ' ') :
    isPySpace c = false := by
  rcases h with rfl | rfl | rfl | rfl
  · rfl
  · exact absurd rfl hs
  · rfl
  · rfl

/-- Claim C7 (corrected: amended form).  The parse/render round trip is the
identity on every well-formed nonempty rectangular grid whose top-left and
bottom-right cells are not spaces (in particular on every grid whose border
is walls).  Without the corner conditions Python's `strip()` deletes
leading/trailing whitespace, so the round trip as claimed for arbitrary
well-formed grids fails (see the counterexample). -/
theorem claimC7_amended {n m : ℕ} {g : Grid} (hr : Rect n m g)
    (hwf : WellFormed g) (hn : 0 < n) (hm : 0 < m)
    (h1 : getCell g 0 0 ≠ ' ') (h2 : getCell g (m - 1) (n - 1) ≠ ' ') :
    parse_grid (grid_to_string g) = g := by
  have hgne : g ≠ [] := by
    intro h
    rw [h] at hr
    have := hr.1
    simp at this
    omega
  have hrowne : ∀ r ∈ g, r ≠ [] := by
    intro r hrm hcon
    have := hr.2 r hrm
    rw [hcon] at this
    simp at this
    omega
  have hnl : ∀ r ∈ g, '\n' ∉ r := by
    intro r hrm hmem
    rcases hwf r hrm '\n' hmem with h | h | h | h <;> exact absurd h (by decide)
  -- the first character of the rendering is the top-left cell
  have hhead : getCell g 0 0 ∈ g.head hgne ∧
      (g.head hgne).head? = some (getCell g 0 0) := by
    cases g with
    | nil => exact absurd rfl hgne
    | cons a t =>
      have hane : a ≠ [] := hrowne a (by simp)
      cases a with
      | nil => exact absurd rfl hane
      | cons c0 cs => exact ⟨by simp [getCell], by simp [getCell]⟩
  -- the last character of the rendering is the bottom-right cell
  have hlastrow : g.getLast hgne ∈ g := List.getLast_mem hgne
  have hlastne : g.getLast hgne ≠ [] := hrowne _ hlastrow
  have hlastcell : (g.getLast hgne).getLast? = some (getCell g (m - 1) (n - 1)) := by
    have hgd : g.getD (n - 1) [] = g.getLast hgne := by
      have := getD_getLast g [] hgne
      rw [hr.1] at this
      exact this
    have hrowlen : (g.getLast hgne).length = m := hr.2 _ hlastrow
    unfold getCell
    rw [hgd, ← hrowlen, getD_getLast _ _ hlastne,
      List.getLast?_eq_getLast _ hlastne]
  unfold parse_grid grid_to_string
  rw [pyStrip_eq_self ?hleft ?hright]
  · exact splitNl_intercalate g hnl hgne
  case hleft =>
    intro c hc
    rw [head?_intercalate g hgne (hrowne _ (List.head_mem hgne)), hhead.2] at hc
    cases hc
    exact glyph_not_space (hwf _ (List.head_mem hgne) _ hhead.1) h1
  case hright =>
    intro c hc
    rw [getLast?_intercalate g hgne hlastne, hlastcell] at hc
    cases hc
    have hcm : getCell g (m - 1) (n - 1) ∈ g.getLast hgne :=
      List.mem_of_mem_getLast? hlastcell
    exact glyph_not_space (hwf _ hlastrow _ hcm) h2

/-- Claim C7 (corrected: counterexample).  The round trip is not the
identity on every well-formed rectangular grid: for the 2×2 grid whose
first cell is a space, `strip()` removes the leading space and parsing
returns a different grid. -/
theorem claimC7_counterexample :
    Rect 2 2 [[' ', '#'], ['#', '#']] ∧ WellFormed [[' ', '#'], ['#', '#']] ∧
    parse_grid (grid_to_string [[' ', '#'], ['#', '#']]) ≠ [[' ', '#'], ['#', '#']] := by
  refine ⟨by decide, by decide, ?_⟩
  decide

/-- Witness for the amended claim C7 at a concrete 3×3 walled grid. -/
theorem claimC7_witness :
    Rect 3 3 [['#', '#', '#'], ['#', 'P', '#'], ['#', '#', '#']] ∧
    parse_grid (grid_to_string [['#', '#', '#'], ['#', 'P', '#'], ['#', '#', '#']]) =
      [['#', '#', '#'], ['#', 'P', '#'], ['#', '#', '#']] :=
  ⟨by decide, @claimC7_amended 3 3 [['#', '#', '#'], ['#', 'P', '#'], ['#', '#', '#']]
    (by decide) (by decide) (by decide) (by decide) (by decide) (by decide)⟩

/-! ## Grid adjacency and the character-locating scan -/

/-- Two positions are 4-adjacent. -/
def adjStep (p q : Pos) : Prop :=
  (q.1 = p.1 + 1 ∧ q.2 = p.2) ∨ (p.1 = q.1 + 1 ∧ p.2 = q.2) ∨
  (q.2 = p.2 + 1 ∧ q.1 = p.1) ∨ (p.2 = q.2 + 1 ∧ q.1 = p.1)

instance (p q : Pos) : Decidable (adjStep p q) := by
  unfold adjStep; infer_instance

theorem adjStep_symm {p q : Pos} (h : adjStep p q) : adjStep q p := by
  unfold adjStep at h ⊢; tauto

theorem adjStep_irrefl (p : Pos) : ¬adjStep p p := by
  unfold adjStep; omega

theorem findInRows_some {rows : List (List Char)} {c : Char} {y0 x y : ℕ}
    (h : findInRows rows c y0 = some (x, y)) :
    y0 ≤ y ∧ y - y0 < rows.length ∧ c ∈ rows.getD (y - y0) [] ∧
      x = (rows.getD (y - y0) []).indexOf c := by
  induction rows generalizing y0 with
  | nil => simp [findInRows] at h
  | cons row rest ih =>
    by_cases hc : c ∈ row
    · rw [findInRows, if_pos hc] at h
      obtain ⟨hx, hy⟩ : row.indexOf c = x ∧ y0 = y := by
        simpa using h
      subst hy
      simp [hx.symm, hc]
    · rw [findInRows, if_neg hc] at h
      obtain ⟨h1, h2, h3, h4⟩ := ih h
      have hy : y0 < y := h1
      have hdiff : y - y0 = (y - (y0 + 1)) + 1 := by omega
      refine ⟨by omega, by simpa [hdiff] using h2, ?_, ?_⟩
      · simpa [hdiff] using h3
      · simpa [hdiff] using h4

/-- What a successful `get_character_coordinates` means: the coordinates
are in range and the cell there holds `c`. -/
theorem coords_spec {g : Grid} {c : Char} {x y : ℕ}
    (h : get_character_coordinates g c = some (x, y)) :
    y < g.length ∧ x < (g.getD y []).length ∧ getCell g x y = c := by
  obtain ⟨-, h2, h3, h4⟩ := findInRows_some (h : findInRows g c 0 = some (x, y))
  rw [Nat.sub_zero] at h2 h3 h4
  have hidx : (g.getD y []).indexOf c < (g.getD y []).length :=
    List.indexOf_lt_length.mpr h3
  refine ⟨h2, by omega, ?_⟩
  unfold getCell
  subst h4
  rw [List.getD_eq_getElem _ _ hidx]
  exact List.getElem_indexOf hidx

/-! ## Structure of the candidate grids produced by `generate_possible_moves` -/

/-- Membership in the candidate list: every candidate grid is obtained by
blanking the mover's cell and writing the tag at a 4-adjacent, in-bounds,
open cell. -/
theorem moves_mem_spec {g : Grid} {c : Char} {x y : ℕ} {moves : List Grid}
    (hpos : get_character_coordinates g c = some (x, y))
    (hm : generate_possible_moves g c = some moves) {g' : Grid}
    (hg' : g' ∈ moves) :
    ∃ p : Pos, adjStep (x, y) p ∧ p.1 < gridCols g ∧ p.2 < gridRows g ∧
      getCell g p.1 p.2 = ' ' ∧
      g' = setCell (setCell g x y ' ') p.1 p.2 c := by
  rw [generate_possible_moves, hpos] at hm
  have hmv : moves =
      ((neighborCandidates x y).filter (isValidMove g)).map
        (fun p => setCell (setCell g x y ' ') p.1.toNat p.2.toNat c) :=
    (Option.some.inj hm).symm
  subst hmv
  · obtain ⟨q, hqmem, hqeq⟩ := List.mem_map.mp hg'
    obtain ⟨hqcand, hqvalid⟩ := List.mem_filter.mp hqmem
    have hv := hqvalid
    unfold isValidMove at hv
    simp only [Bool.and_eq_true, decide_eq_true_eq, beq_iff_eq] at hv
    obtain ⟨⟨⟨⟨hy0, hylt⟩, hx0⟩, hxlt⟩, hopen⟩ := hv
    refine ⟨(q.1.toNat, q.2.toNat), ?_, ?_, ?_, hopen, hqeq.symm⟩
    · -- adjacency from the four candidate shapes
      simp only [neighborCandidates, List.mem_cons, List.not_mem_nil,
        or_false] at hqcand
      rcases hqcand with rfl | rfl | rfl | rfl
      · right; right; right
        constructor <;> omega
      · right; right; left
        constructor <;> omega
      · right; left
        constructor <;> omega
      · left
        constructor <;> omega
    · omega
    · omega

/-- The new grids keep the dimensions of the input grid. -/
theorem moves_rect {n m : ℕ} {g : Grid} (hr : Rect n m g) {c : Char} {x y : ℕ}
    {moves : List Grid}
    (hpos : get_character_coordinates g c = some (x, y))
    (hm : generate_possible_moves g c = some moves) {g' : Grid}
    (hg' : g' ∈ moves) : Rect n m g' := by
  obtain ⟨p, -, -, -, -, heq⟩ := moves_mem_spec hpos hm hg'
  subst heq
  exact (hr.setCell_pres x y ' ').setCell_pres p.1 p.2 c

/-- `gridCols` of a rectangular nonempty grid is its column count. -/
theorem gridCols_of_rect {n m : ℕ} {g : Grid} (hr : Rect n m g) (hn : 0 < n) :
    gridCols g = m := by
  cases g with
  | nil => rw [← hr.1] at hn; simp at hn
  | cons r t => exact hr.2 r (by simp)

/-- Claim C9 (confirmed).  Every grid in the list returned by
`generate_possible_moves` equals the input grid except that the mover's
former cell becomes open and exactly one formerly open 4-adjacent cell
becomes the mover's tag; dimensions and every other cell are unchanged.
(The input value itself is unchanged by construction: the embedding is
pure, matching the source's row-copying.) -/
theorem claimC9 {n m : ℕ} {g : Grid} {c : Char} {x y : ℕ} {moves : List Grid}
    (hr : Rect n m g) (hc : c ≠ ' ')
    (hpos : get_character_coordinates g c = some (x, y))
    (hm : generate_possible_moves g c = some moves) {g' : Grid}
    (hg' : g' ∈ moves) :
    Rect n m g' ∧
    ∃ p : Pos, adjStep (x, y) p ∧ getCell g p.1 p.2 = ' ' ∧
      getCell g' p.1 p.2 = c ∧ getCell g' x y = ' ' ∧
      ∀ a b : ℕ, ¬(a = p.1 ∧ b = p.2) → ¬(a = x ∧ b = y) →
        getCell g' a b = getCell g a b := by
  obtain ⟨p, hadj, hpx, hpy, hopen, heq⟩ := moves_mem_spec hpos hm hg'
  obtain ⟨hylen, hxlen, hcell⟩ := coords_spec hpos
  have hn : 0 < n := by rw [← hr.1]; omega
  have hcols : gridCols g = m := gridCols_of_rect hr hn
  have hrows : gridRows g = n := hr.1
  have hrect1 : Rect n m (setCell g x y ' ') := hr.setCell_pres x y ' '
  have hrect' : Rect n m g' := by rw [heq]; exact hrect1.setCell_pres p.1 p.2 c
  have hpneq : ¬(p.1 = x ∧ p.2 = y) := by
    intro ⟨h1, h2⟩
    rw [h1, h2, hcell] at hopen
    exact hc hopen
  refine ⟨hrect', p, hadj, hopen, ?_, ?_, ?_⟩
  · -- the moved-to cell holds the tag
    rw [heq]
    exact getCell_setCell_self _ _ _ _
      (by rw [(by simp [setCell] : (setCell g x y ' ').length = g.length)]
          exact hpy)
      (by rw [rect_getD_length hrect1 (by rw [← hrows]; exact hpy)]
          rw [← hcols]; exact hpx)
  · -- the former cell is blanked
    rw [heq, getCell_setCell_ne _ _ _ _ _ _ (fun h => hpneq ⟨h.1.symm, h.2.symm⟩)]
    exact getCell_setCell_self _ _ _ _ hylen hxlen
  · intro a b hnp hnxy
    rw [heq, getCell_setCell_ne _ _ _ _ _ _ hnp, getCell_setCell_ne _ _ _ _ _ _ hnxy]

/-- Concrete grid for the C9 witness. -/
def w9g : Grid := parse_grid ("#####\n#P  #\n#####".toList)

/-- The single candidate grid produced for `w9g`. -/
def w9m : Grid := setCell (setCell w9g 1 1 ' ') 2 1 'P'

/-- Witness for claim C9 at a concrete grid. -/
theorem claimC9_witness :
    Rect 3 5 w9m ∧
    (∃ p : Pos, adjStep (1, 1) p ∧ getCell w9g p.1 p.2 = ' ' ∧
      getCell w9m p.1 p.2 = 'P' ∧ getCell w9m 1 1 = ' ' ∧
      ∀ a b : ℕ, ¬(a = p.1 ∧ b = p.2) → ¬(a = 1 ∧ b = 1) →
        getCell w9m a b = getCell w9g a b) :=
  @claimC9 3 5 w9g 'P' 1 1 [w9m] (by decide) (by decide) (by decide)
    (by decide) w9m (by decide)

/-- Claim C8 (corrected: amended form).  The move candidates enumerated
for the mover are exactly 4-adjacent cells that currently read `' '`; a
cell occupied by the target's tag is therefore never among them.  (Target
traversability applies only inside `calculate_path_distance`.) -/
theorem claimC8_amended {g : Grid} {c1 c2 : Char} {x y : ℕ} {t : Pos}
    {moves : List Grid}
    (h1 : get_character_coordinates g c1 = some (x, y))
    (h2 : get_character_coordinates g c2 = some t)
    (hne : c2 ≠ ' ')
    (hm : generate_possible_moves g c1 = some moves) :
    ∀ g' ∈ moves, ∃ p : Pos, adjStep (x, y) p ∧ getCell g p.1 p.2 = ' ' ∧
      p ≠ t ∧ g' = setCell (setCell g x y ' ') p.1 p.2 c1 := by
  intro g' hg'
  obtain ⟨p, hadj, -, -, hopen, heq⟩ := moves_mem_spec h1 hm hg'
  have htc : getCell g t.1 t.2 = c2 := (coords_spec (by
    cases t; exact h2)).2.2
  refine ⟨p, hadj, hopen, ?_, heq⟩
  intro hpt
  rw [hpt, htc] at hopen
  exact hne hopen

/-- Concrete grid for the C8 counterexample: `P` is 4-adjacent to `O`. -/
def c8g : Grid := parse_grid ("#####\n#PO #\n#   #\n#####".toList)

/-- Claim C8 (corrected: counterexample).  With `P` adjacent to `O`, the
cell holding `O` is not among the enumerated candidates: the only
candidate moves `P` to `(1, 2)`, never onto `O`'s cell `(2, 1)`. -/
theorem claimC8_counterexample :
    get_character_coordinates c8g 'P' = some (1, 1) ∧
    get_character_coordinates c8g 'O' = some (2, 1) ∧
    adjStep (1, 1) (2, 1) ∧
    (∃ moves, generate_possible_moves c8g 'P' = some moves ∧ moves ≠ [] ∧
      ∀ g' ∈ moves, getCell g' 2 1 ≠ 'P') := by
  refine ⟨by decide, by decide, by decide,
    [setCell (setCell c8g 1 1 ' ') 1 2 'P'], by decide, by decide, by decide⟩

/-- Witness for the amended claim C8 at the same concrete grid. -/
theorem claimC8_witness :
    ∃ p : Pos, adjStep (1, 1) p ∧ getCell c8g p.1 p.2 = ' ' ∧
      p ≠ (2, 1) ∧ setCell (setCell c8g 1 1 ' ') 1 2 'P'
        = setCell (setCell c8g 1 1 ' ') p.1 p.2 'P' :=
  @claimC8_amended c8g 'P' 'O' 1 1 (2, 1) [setCell (setCell c8g 1 1 ' ') 1 2 'P']
    (by decide) (by decide) (by decide) (by decide)
    (setCell (setCell c8g 1 1 ' ') 1 2 'P') (by decide)

/-- Claim C5 (confirmed).  When every 4-neighbour of the mover is out of
bounds or a wall, both `make_move` and `make_smart_move` fail (the error
propagates to the caller as `none`); in particular neither returns any
grid, let alone the unchanged input. -/
theorem claimC5 {gs : List Char} {c1 c2 : Char} {x y : ℕ}
    (hpos : get_character_coordinates (parse_grid gs) c1 = some (x, y))
    (hblock : ∀ p : ℤ × ℤ, p ∈ neighborCandidates x y →
      p.2 < 0 ∨ (gridRows (parse_grid gs) : ℤ) ≤ p.2 ∨ p.1 < 0 ∨
        (gridCols (parse_grid gs) : ℤ) ≤ p.1 ∨
        getCell (parse_grid gs) p.1.toNat p.2.toNat = '#') :
    make_move gs c1 c2 = none ∧ make_smart_move gs c1 c2 = none := by
  have hfilter : (neighborCandidates x y).filter (isValidMove (parse_grid gs)) = [] := by
    rw [List.filter_eq_nil_iff]
    intro p hp htrue
    simp only [isValidMove, Bool.and_eq_true, decide_eq_true_eq, beq_iff_eq] at htrue
    obtain ⟨⟨⟨⟨hy0, hylt⟩, hx0⟩, hxlt⟩, hopen⟩ := htrue
    rcases hblock p hp with h | h | h | h | h
    · omega
    · omega
    · omega
    · omega
    · rw [h] at hopen
      exact absurd hopen (by decide)
  have hmoves : generate_possible_moves (parse_grid gs) c1 = some [] := by
    rw [generate_possible_moves, hpos]
    show some _ = some []
    rw [hfilter]
    rfl
  constructor
  · rw [make_move, hmoves]
    rfl
  · rw [make_smart_move, hmoves]
    rfl

/-- Concrete sealed grid for the C5 witness: `P` is walled in on all four
sides while `O` exists elsewhere. -/
def c5g : List Char := "#####\n#O###\n###P#\n#####".toList

/-- Witness for claim C5. -/
theorem claimC5_witness :
    get_character_coordinates (parse_grid c5g) 'P' = some (3, 2) ∧
    make_move c5g 'P' 'O' = none ∧ make_smart_move c5g 'P' 'O' = none :=
  ⟨by decide, @claimC5 c5g 'P' 'O' 3 2 (by decide) (by decide)⟩

/-- The 5×5 open-rectangle scenario grid of claim C6. -/
def c6g : List Char := "#####\n#P  #\n#   #\n#  O#\n#####".toList

/-- The rendering of the grid after `P` moves down to `(1, 2)`. -/
def c6down : List Char := "#####\n#   #\n#P  #\n#  O#\n#####".toList

/-- Claim C6 (corrected: counterexample).  On the 5×5 open rectangle the
Manhattan-mode step does not break the tie in favour of `(2, 1)`: the
chosen move puts `P` at `(1, 2)`. -/
theorem claimC6_counterexample :
    make_move c6g 'P' 'O' = some c6down ∧
    get_character_coordinates (parse_grid c6down) 'P' ≠ some (2, 1) := by
  constructor
  · decide
  · decide

/-- Claim C6 (corrected: amended form).  The step moves `P` to one of the
two tied candidates, and the tie is broken in favour of `(1, 2)` — "down"
precedes "right" in the up/down/left/right enumeration order, and Python's
`min` keeps the first minimum. -/
theorem claimC6_amended :
    make_move c6g 'P' 'O' = some c6down ∧
    get_character_coordinates (parse_grid c6down) 'P' = some (1, 2) := by
  constructor
  · decide
  · decide

/-- The disconnected-regions grid of claim C4: `P`'s corridor is sealed
off from `O`'s cell. -/
def c4g : List Char := "#######\n#######\n### ###\n###P###\n### ###\n#O#####\n#######".toList

/-- The candidate grid with `P` moved up to `(3, 2)`. -/
def c4up : Grid :=
  parse_grid ("#######\n#######\n###P###\n### ###\n### ###\n#O#####\n#######".toList)

/-- The candidate grid with `P` moved down to `(3, 4)`. -/
def c4down : Grid :=
  parse_grid ("#######\n#######\n### ###\n### ###\n###P###\n#O#####\n#######".toList)

/-- Claim C4 (code bug, evaluated at the failing input).  Both candidates
are unreachable from the target (`calculate_path_distance` returns the
`-1` sentinel for each), the Manhattan distances are 5 (up) and 3 (down),
yet `make_smart_move` selects the up candidate: Python's `min` treats the
`-1` sentinel as the best score, so the claimed Manhattan fallback never
happens and unreachable candidates are in fact preferred. -/
theorem claimC4_eval :
    generate_possible_moves (parse_grid c4g) 'P' = some [c4up, c4down] ∧
    calculate_path_distance c4up 'P' 'O' = some (-1) ∧
    calculate_path_distance c4down 'P' 'O' = some (-1) ∧
    calculate_distance c4up 'P' 'O' = some 5 ∧
    calculate_distance c4down 'P' 'O' = some 3 ∧
    make_smart_move c4g 'P' 'O' = some (grid_to_string c4up) := by
  refine ⟨?_, ?_, ?_, ?_, ?_, ?_⟩
  · decide
  · decide
  · decide
  · decide
  · decide
  · decide

/-! ## Walks through open cells: the specification of `calculate_path_distance`

A BFS step may enter a cell iff it is in bounds and either open or the
target cell (the cell stepped *from* is unconstrained, matching the
source, which never re-checks the dequeued cell). -/

/-- The cell `p` may be entered during a search toward `t`. -/
def okCell (g : Grid) (t p : Pos) : Prop :=
  p.1 < gridCols g ∧ p.2 < gridRows g ∧ (getCell g p.1 p.2 = ' ' ∨ p = t)

instance (g : Grid) (t p : Pos) : Decidable (okCell g t p) := by
  unfold okCell; infer_instance

/-- One search step from `u` into `v`. -/
def okStep (g : Grid) (t : Pos) (u v : Pos) : Prop := adjStep u v ∧ okCell g t v

/-- `IsWalk g t s l v`: starting from `s`, entering the cells of `l` in
order (each step 4-adjacent and traversable) ends at `v`. -/
def IsWalk (g : Grid) (t : Pos) : Pos → List Pos → Pos → Prop
  | s, [], v => v = s
  | s, c :: cs, v => okStep g t s c ∧ IsWalk g t c cs v

/-- There is a walk of length `n` from `s` to `v`. -/
def HasWalk (g : Grid) (t s v : Pos) (n : ℕ) : Prop :=
  ∃ l, l.length = n ∧ IsWalk g t s l v

/-- `v` is reachable from `s`. -/
def Reaches (g : Grid) (t s v : Pos) : Prop := ∃ n, HasWalk g t s v n

/-- `n` is the length of a shortest walk from `s` to `v`. -/
def IsShortest (g : Grid) (t s v : Pos) (n : ℕ) : Prop :=
  HasWalk g t s v n ∧ ∀ k, HasWalk g t s v k → n ≤ k

theorem hasWalk_zero {g : Grid} {t s v : Pos} : HasWalk g t s v 0 ↔ v = s := by
  constructor
  · rintro ⟨l, hl, hw⟩
    rw [List.length_eq_zero] at hl
    subst hl
    exact hw
  · rintro rfl
    exact ⟨[], rfl, rfl⟩

theorem isWalk_snoc {g : Grid} {t : Pos} {s w v : Pos} {l : List Pos}
    (hw : IsWalk g t s l w) (hs : okStep g t w v) :
    IsWalk g t s (l ++ [v]) v := by
  induction l generalizing s with
  | nil => cases hw; exact ⟨hs, rfl⟩
  | cons c cs ih => exact ⟨hw.1, ih hw.2⟩

theorem isWalk_last_step {g : Grid} {t : Pos} {s v : Pos} {l : List Pos}
    (hw : IsWalk g t s l v) (hne : l ≠ []) :
    ∃ l' w, l = l' ++ [v] ∧ IsWalk g t s l' w ∧ okStep g t w v := by
  induction l generalizing s with
  | nil => exact absurd rfl hne
  | cons c cs ih =>
    cases cs with
    | nil =>
      obtain ⟨hstep, hrest⟩ := hw
      cases hrest
      exact ⟨[], s, rfl, rfl, hstep⟩
    | cons c2 cs2 =>
      obtain ⟨hstep, hrest⟩ := hw
      obtain ⟨l', w, heq, hw', hs'⟩ := ih hrest (by simp)
      exact ⟨c :: l', w, by rw [heq]; rfl, ⟨hstep, hw'⟩, hs'⟩

theorem hasWalk_succ {g : Grid} {t s v : Pos} {n : ℕ} :
    HasWalk g t s v (n + 1) ↔ ∃ w, HasWalk g t s w n ∧ okStep g t w v := by
  constructor
  · rintro ⟨l, hl, hw⟩
    obtain ⟨l', w, heq, hw', hs'⟩ := isWalk_last_step hw (by
      intro hc; rw [hc] at hl; simp at hl)
    subst heq
    refine ⟨w, ⟨l', ?_, hw'⟩, hs'⟩
    simpa using hl
  · rintro ⟨w, ⟨l, hl, hw⟩, hs⟩
    exact ⟨l ++ [v], by simpa using hl, isWalk_snoc hw hs⟩

theorem hasWalk_extend {g : Grid} {t s w v : Pos} {n : ℕ}
    (h : HasWalk g t s w n) (hs : okStep g t w v) : HasWalk g t s v (n + 1) :=
  hasWalk_succ.mpr ⟨w, h, hs⟩

theorem exists_shortest {g : Grid} {t s v : Pos} (h : Reaches g t s v) :
    ∃ n, IsShortest g t s v n := by
  classical
  obtain ⟨n, hn⟩ := h
  exact ⟨Nat.find (⟨n, hn⟩ : ∃ k, HasWalk g t s v k),
    Nat.find_spec (⟨n, hn⟩ : ∃ k, HasWalk g t s v k),
    fun k hk => Nat.find_min' _ hk⟩

theorem isShortest_unique {g : Grid} {t s v : Pos} {n k : ℕ}
    (h1 : IsShortest g t s v n) (h2 : IsShortest g t s v k) : n = k :=
  Nat.le_antisymm (h1.2 k h2.1) (h2.2 n h1.1)

/-- A shortest walk of positive length has a penultimate cell at the
previous shortest distance. -/
theorem isShortest_pred {g : Grid} {t s v : Pos} {d : ℕ}
    (h : IsShortest g t s v (d + 1)) :
    ∃ w, IsShortest g t s w d ∧ okStep g t w v := by
  obtain ⟨w, hwd, hstep⟩ := hasWalk_succ.mp h.1
  refine ⟨w, ⟨hwd, ?_⟩, hstep⟩
  intro k hk
  by_contra hlt
  exact absurd (h.2 (k + 1) (hasWalk_extend hk hstep)) (by omega)

/-! ## Properties of one BFS expansion step (`pushNbrs`) -/

/-- The in-bounds cells of the grid. -/
def allCells (g : Grid) : Finset Pos :=
  Finset.range (gridCols g) ×ˢ Finset.range (gridRows g)

theorem pushNbrs_vis_mono (g : Grid) (t : Pos) (x y d : ℕ) :
    ∀ (dirs : List (ℤ × ℤ)) (vis : Finset Pos) (acc : List (Pos × ℕ)),
      vis ⊆ (pushNbrs g t x y d dirs vis acc).1 := by
  intro dirs
  induction dirs with
  | nil => intro vis acc; exact fun z hz => hz
  | cons dd rest ih =>
    intro vis acc
    obtain ⟨dx, dy⟩ := dd
    rw [pushNbrs]
    split
    · exact fun z hz => ih _ _ (Finset.mem_insert_of_mem hz)
    · exact ih _ _

/-- Full characterisation of one expansion: the new entries are exactly
the freshly visited cells, each labelled `d + 1`, generated by one of
the supplied offsets, in bounds and traversable; and the number of
unvisited in-bounds cells drops by exactly the number of new entries. -/
theorem pushNbrs_spec (g : Grid) (t : Pos) (x y d : ℕ) :
    ∀ (dirs : List (ℤ × ℤ)) (vis : Finset Pos) (acc : List (Pos × ℕ)),
    ∃ news : List (Pos × ℕ),
      (pushNbrs g t x y d dirs vis acc).2 = acc ++ news ∧
      (∀ z : Pos, z ∈ (pushNbrs g t x y d dirs vis acc).1 ↔
        z ∈ vis ∨ z ∈ news.map Prod.fst) ∧
      (∀ e ∈ news, e.2 = d + 1 ∧ e.1 ∉ vis ∧ okCell g t e.1 ∧
        ∃ dd ∈ dirs, 0 ≤ (x : ℤ) + dd.1 ∧ 0 ≤ (y : ℤ) + dd.2 ∧
          ((x : ℤ) + dd.1).toNat = e.1.1 ∧ ((y : ℤ) + dd.2).toNat = e.1.2) ∧
      (news.map Prod.fst).Nodup ∧
      (allCells g \ (pushNbrs g t x y d dirs vis acc).1).card + news.length
        = (allCells g \ vis).card := by
  intro dirs
  induction dirs with
  | nil =>
    intro vis acc
    exact ⟨[], by simp [pushNbrs], by simp [pushNbrs], by simp, by simp,
      by simp [pushNbrs]⟩
  | cons dd rest ih =>
    intro vis acc
    obtain ⟨dx, dy⟩ := dd
    rw [pushNbrs]
    split
    case isTrue hcond =>
      obtain ⟨hy0, hylt, hx0, hxlt, hnvis, htrav⟩ := hcond
      have hb1 : ((x : ℤ) + dx).toNat < gridCols g := by omega
      have hb2 : ((y : ℤ) + dy).toNat < gridRows g := by omega
      obtain ⟨news', h1, h2, h3, h4, h5⟩ :=
        ih (insert (((x : ℤ) + dx).toNat, ((y : ℤ) + dy).toNat) vis)
          (acc ++ [((((x : ℤ) + dx).toNat, ((y : ℤ) + dy).toNat), d + 1)])
      set c : Pos := (((x : ℤ) + dx).toNat, ((y : ℤ) + dy).toNat) with hc
      have hcA : c ∈ allCells g := by
        simp only [hc, allCells, Finset.mem_product, Finset.mem_range]
        exact ⟨hb1, hb2⟩
      have hcok : okCell g t c := ⟨hb1, hb2, htrav⟩
      refine ⟨(c, d + 1) :: news', ?_, ?_, ?_, ?_, ?_⟩
      · rw [h1, List.append_assoc]
        rfl
      · intro z
        rw [h2 z]
        simp only [Finset.mem_insert, List.map_cons, List.mem_cons]
        tauto
      · intro e he
        rcases List.mem_cons.mp he with rfl | he'
        · exact ⟨rfl, hnvis, hcok, ⟨(dx, dy), by simp, hx0, hy0, rfl, rfl⟩⟩
        · obtain ⟨hl, hv, hok, dd', hdd', hdeq⟩ := h3 e he'
          exact ⟨hl, fun hz => hv (Finset.mem_insert_of_mem hz), hok,
            dd', by simp [hdd'], hdeq⟩
      · simp only [List.map_cons, List.nodup_cons]
        refine ⟨?_, h4⟩
        intro hmem
        obtain ⟨e, he, heq⟩ := List.mem_map.mp hmem
        exact (h3 e he).2.1 (by rw [heq]; exact Finset.mem_insert_self c vis)
      · have hcd : c ∈ allCells g \ vis := Finset.mem_sdiff.mpr ⟨hcA, hnvis⟩
        have hcard : (allCells g \ insert c vis).card
            = (allCells g \ vis).card - 1 := by
          rw [Finset.sdiff_insert, Finset.card_erase_of_mem hcd]
        have hpos : 0 < (allCells g \ vis).card := Finset.card_pos.mpr ⟨c, hcd⟩
        simp only [List.length_cons]
        omega
    case isFalse hcond =>
      obtain ⟨news', h1, h2, h3, h4, h5⟩ := ih vis acc
      refine ⟨news', h1, h2, ?_, h4, h5⟩
      intro e he
      obtain ⟨hl, hv, hok, dd', hdd', hdeq⟩ := h3 e he
      exact ⟨hl, hv, hok, dd', by simp [hdd'], hdeq⟩


/-- Every traversable 4-neighbour of the expanded cell is visited after
the expansion over the full direction list. -/
theorem pushNbrs_closure (g : Grid) (t : Pos) (x y d : ℕ) :
    ∀ (dirs : List (ℤ × ℤ)) (vis : Finset Pos) (acc : List (Pos × ℕ)) (v : Pos),
      (∃ dd ∈ dirs, 0 ≤ (x : ℤ) + dd.1 ∧ 0 ≤ (y : ℤ) + dd.2 ∧
        ((x : ℤ) + dd.1).toNat = v.1 ∧ ((y : ℤ) + dd.2).toNat = v.2) →
      okCell g t v → v ∈ (pushNbrs g t x y d dirs vis acc).1 := by
  intro dirs
  induction dirs with
  | nil =>
    rintro vis acc v ⟨dd, hdd, -⟩ -
    simp at hdd
  | cons dd0 rest ih =>
    rintro vis acc v ⟨dd, hdd, hdx0, hdy0, hdx, hdy⟩ hok
    obtain ⟨dx0, dy0⟩ := dd0
    rcases List.mem_cons.mp hdd with heq | hdd'
    · -- the head direction generates `v`
      obtain ⟨hde1, hde2⟩ : dd.1 = dx0 ∧ dd.2 = dy0 := by
        rw [heq]; exact ⟨rfl, rfl⟩
      rw [hde1] at hdx0 hdx
      rw [hde2] at hdy0 hdy
      have hveq : (((x : ℤ) + dx0).toNat, ((y : ℤ) + dy0).toNat) = v := by
        obtain ⟨v1, v2⟩ := v
        simp only [Prod.mk.injEq]
        exact ⟨hdx, hdy⟩
      rw [pushNbrs]
      split
      case isTrue hcond =>
        apply pushNbrs_vis_mono
        rw [hveq]
        exact Finset.mem_insert_self v _
      case isFalse hcond =>
        -- the condition can only fail because `v` is already visited
        obtain ⟨hb1, hb2, hb3⟩ := hok
        by_cases hvvis : v ∈ vis
        · exact pushNbrs_vis_mono g t x y d rest vis acc hvvis
        · have hyv : (y : ℤ) + dy0 = (v.2 : ℤ) := by omega
          have hxv : (x : ℤ) + dx0 = (v.1 : ℤ) := by omega
          exfalso
          apply hcond
          rw [hdx, hdy, Prod.mk.eta]
          exact ⟨hdy0, by rw [hyv]; exact_mod_cast hb2, hdx0,
            by rw [hxv]; exact_mod_cast hb1, hvvis, hb3⟩
    · -- a later direction generates `v`
      rw [pushNbrs]
      split
      · exact ih _ _ v ⟨dd, hdd', hdx0, hdy0, hdx, hdy⟩ hok
      · exact ih _ _ v ⟨dd, hdd', hdx0, hdy0, hdx, hdy⟩ hok

/-- A BFS offset applied at `(x, y)` lands on a 4-adjacent cell. -/
theorem dir_toNat_adjStep {x y : ℕ} {v : Pos} {dd : ℤ × ℤ}
    (hdd : dd ∈ bfsDirections)
    (h1 : 0 ≤ (x : ℤ) + dd.1) (h2 : 0 ≤ (y : ℤ) + dd.2)
    (hx : ((x : ℤ) + dd.1).toNat = v.1) (hy : ((y : ℤ) + dd.2).toNat = v.2) :
    adjStep (x, y) v := by
  simp only [bfsDirections, List.mem_cons, List.not_mem_nil, or_false] at hdd
  unfold adjStep
  rcases hdd with rfl | rfl | rfl | rfl <;> dsimp only at h1 h2 hx hy ⊢ <;> omega

/-- Conversely, every traversable 4-adjacent cell is reached by one of
the BFS offsets, so after the expansion it is visited. -/
theorem pushNbrs_closure_step {g : Grid} {t : Pos} {p v : Pos} (d : ℕ)
    (vis : Finset Pos) (acc : List (Pos × ℕ)) (h : okStep g t p v) :
    v ∈ (pushNbrs g t p.1 p.2 d bfsDirections vis acc).1 := by
  obtain ⟨hadj, hok⟩ := h
  apply pushNbrs_closure g t p.1 p.2 d bfsDirections vis acc v _ hok
  unfold adjStep at hadj
  rcases hadj with ⟨ha, hb⟩ | ⟨ha, hb⟩ | ⟨ha, hb⟩ | ⟨ha, hb⟩
  · exact ⟨(1, 0), by simp [bfsDirections], by omega, by omega, by omega, by omega⟩
  · exact ⟨(-1, 0), by simp [bfsDirections], by omega, by omega, by omega, by omega⟩
  · exact ⟨(0, 1), by simp [bfsDirections], by omega, by omega, by omega, by omega⟩
  · exact ⟨(0, -1), by simp [bfsDirections], by omega, by omega, by omega, by omega⟩

/-! ## The BFS loop invariant -/

/-- Invariant of `bfsLoop` relative to a ghost set `P` of fully processed
(dequeued) cells.  `q` is the pending queue, `vis` the visited set. -/
structure BfsInv (g : Grid) (t s : Pos) (q : List (Pos × ℕ)) (vis : Finset Pos)
    (P : Finset Pos) : Prop where
  vis_eq : ∀ z : Pos, z ∈ vis ↔ z ∈ P ∨ z ∈ q.map Prod.fst
  disj : ∀ z ∈ q.map Prod.fst, z ∉ P
  qnodup : (q.map Prod.fst).Nodup
  labels : ∀ e ∈ q, IsShortest g t s e.1 e.2
  sorted : ∃ D : ℕ, ∃ qa qb : List (Pos × ℕ), q = qa ++ qb ∧
    (∀ e ∈ qa, e.2 = D) ∧ (∀ e ∈ qb, e.2 = D + 1)
  closed : ∀ u ∈ P, ∀ v : Pos, okStep g t u v → v ∈ vis
  front : ∀ e : Pos × ℕ, q.head? = some e → ∀ (u : Pos) (k : ℕ),
    IsShortest g t s u k → (k < e.2 → u ∈ P) ∧ (k = e.2 → u ∈ vis)
  start_vis : s ∈ vis
  t_notin : t ∉ P

/-- The invariant holds initially. -/
theorem bfsInv_init (g : Grid) (t s : Pos) :
    BfsInv g t s [(s, 0)] {s} ∅ := by
  refine ⟨?_, ?_, ?_, ?_, ?_, ?_, ?_, ?_, ?_⟩
  · intro z; simp
  · intro z hz; simp
  · simp
  · intro e he
    have : e = (s, 0) := by simpa using he
    subst this
    exact ⟨hasWalk_zero.mpr rfl, fun k _ => Nat.zero_le k⟩
  · exact ⟨0, [(s, 0)], [], by simp, by simp, by simp⟩
  · intro u hu; simp at hu
  · intro e he u k hk
    have : e = (s, 0) := (by simpa using he : (s, 0) = e).symm
    subst this
    refine ⟨by omega, ?_⟩
    intro hk0
    rw [hk0] at hk
    have := hasWalk_zero.mp hk.1
    simp [this]
  · simp
  · simp

/-- One dequeue-and-expand step preserves the invariant (the dequeued cell
moves into the processed set). -/
theorem bfs_step_inv {g : Grid} {t s : Pos} {p : Pos} {d : ℕ}
    {rest : List (Pos × ℕ)} {vis P : Finset Pos}
    (inv : BfsInv g t s ((p, d) :: rest) vis P) (hpt : p ≠ t) :
    BfsInv g t s (rest ++ (pushNbrs g t p.1 p.2 d bfsDirections vis []).2)
      (pushNbrs g t p.1 p.2 d bfsDirections vis []).1 (insert p P) := by
  obtain ⟨news, hq2, hvis', hnews, hnodup, -⟩ :=
    pushNbrs_spec g t p.1 p.2 d bfsDirections vis []
  have hq2' : (pushNbrs g t p.1 p.2 d bfsDirections vis []).2 = news := by
    simpa using hq2
  rw [hq2']
  obtain ⟨hve, hdj, hnd, hlb, hso, hcl, hfr, hsv, htn⟩ := inv
  have hndc : ((p, d) :: rest).map Prod.fst = p :: rest.map Prod.fst := rfl
  rw [hndc] at hnd
  have hpnotrest : p ∉ rest.map Prod.fst := (List.nodup_cons.mp hnd).1
  have hrestnd : (rest.map Prod.fst).Nodup := (List.nodup_cons.mp hnd).2
  have hpvis : p ∈ vis := (hve p).mpr (Or.inr (by simp))
  have hPsub : ∀ z ∈ P, z ∈ vis := fun z hz => (hve z).mpr (Or.inl hz)
  have hrestvis : ∀ z ∈ rest.map Prod.fst, z ∈ vis := fun z hz =>
    (hve z).mpr (Or.inr (by rw [hndc]; exact List.mem_cons_of_mem p hz))
  have hnewsfresh : ∀ e ∈ news, e.1 ∉ vis := fun e he => (hnews e he).2.1
  have hnewslab : ∀ e ∈ news, e.2 = d + 1 := fun e he => (hnews e he).1
  have hheadshort : IsShortest g t s p d := hlb (p, d) (by simp)
  have hnewsadj : ∀ e ∈ news, okStep g t p e.1 := by
    intro e he
    obtain ⟨-, -, hok, dd, hdd, h1, h2, h3, h4⟩ := hnews e he
    exact ⟨dir_toNat_adjStep hdd h1 h2 h3 h4, hok⟩
  have hnewsshort : ∀ e ∈ news, IsShortest g t s e.1 (d + 1) := by
    intro e he
    refine ⟨hasWalk_extend hheadshort.1 (hnewsadj e he), ?_⟩
    intro k hk
    by_contra hlt
    push_neg at hlt
    obtain ⟨kst, hkst⟩ := exists_shortest ⟨k, hk⟩
    have hkk : kst ≤ k := hkst.2 k hk
    have hcases := hfr (p, d) rfl e.1 kst hkst
    rcases (by omega : kst < d ∨ kst = d) with h | h
    · exact hnewsfresh e he (hPsub _ (hcases.1 h))
    · exact hnewsfresh e he (hcases.2 h)
  have hvmono : ∀ z ∈ vis, z ∈ (pushNbrs g t p.1 p.2 d bfsDirections vis []).1 :=
    fun z hz => (hvis' z).mpr (Or.inl hz)
  have hclosed' : ∀ u ∈ insert p P, ∀ v : Pos, okStep g t u v →
      v ∈ (pushNbrs g t p.1 p.2 d bfsDirections vis []).1 := by
    intro u hu v hstep
    rcases Finset.mem_insert.mp hu with rfl | hu'
    · exact pushNbrs_closure_step d vis [] hstep
    · exact hvmono _ (hcl u hu' v hstep)
  have hbelow : (∀ e' ∈ rest, e'.2 = d + 1) →
      ∀ (u : Pos) (k : ℕ), IsShortest g t s u k → k < d + 1 →
        u ∈ insert p P := by
    intro hrestlab u k hk hklt
    have hold := hfr (p, d) rfl u k hk
    rcases (by omega : k < d ∨ k = d) with h | h
    · exact Finset.mem_insert_of_mem (hold.1 h)
    · have huv : u ∈ vis := hold.2 h
      rcases (hve u).mp huv with hP | hq
      · exact Finset.mem_insert_of_mem hP
      · rcases List.mem_map.mp hq with ⟨e', he', heq⟩
        rcases List.mem_cons.mp he' with rfl | he''
        · rw [← heq]; exact Finset.mem_insert_self p P
        · exfalso
          have hsh : IsShortest g t s u e'.2 := heq ▸ hlb e' (by simp [he''])
          have : e'.2 = k := isShortest_unique hsh hk
          have := hrestlab e' he''
          omega
  have hfrontlab : ∀ e : Pos × ℕ, (rest ++ news).head? = some e →
      e.2 = d ∨ (e.2 = d + 1 ∧ ∀ e' ∈ rest, e'.2 = d + 1) := by
    obtain ⟨D, qa, qb, hqeq, hqa, hqb⟩ := hso
    intro e he
    cases qa with
    | nil =>
      -- the whole queue is the `D+1` block, so every label equals `d`
      have hqb' : qb = (p, d) :: rest := by simpa using hqeq.symm
      have hd : d = D + 1 := by
        have := hqb (p, d) (by rw [hqb']; simp)
        simpa using this
      have hrestl : ∀ e' ∈ rest, e'.2 = d := by
        intro e' he'
        have := hqb e' (by rw [hqb']; exact List.mem_cons_of_mem _ he')
        omega
      cases rest with
      | nil =>
        right
        refine ⟨?_, by simp⟩
        have : e ∈ news := List.mem_of_mem_head? (by simpa using he)
        exact hnewslab e this
      | cons r0 rest' =>
        left
        have : e = r0 := by simpa using he.symm
        subst this
        exact hrestl e (by simp)
    | cons e0 qa' =>
      have he0 : e0 = (p, d) ∧ rest = qa' ++ qb := by
        have : (p, d) :: rest = e0 :: (qa' ++ qb) := by simpa using hqeq
        exact ⟨(List.cons.injEq _ _ _ _ ▸ this).1.symm,
          (List.cons.injEq _ _ _ _ ▸ this).2⟩
      have hdD : d = D := by
        have := hqa e0 (by simp)
        rw [he0.1] at this
        simpa using this
      cases qa' with
      | cons e1 qa'' =>
        left
        have hrw : rest = e1 :: (qa'' ++ qb) := by simpa using he0.2
        have heq1 : e = e1 := by
          rw [hrw] at he
          simpa using he.symm
        have hlab1 := hqa e1 (by simp)
        rw [heq1]
        omega
      | nil =>
        right
        have hrw : rest = qb := by simpa using he0.2
        have hrestl : ∀ e' ∈ rest, e'.2 = d + 1 := by
          intro e' he'
          have := hqb e' (by rw [← hrw]; exact he')
          omega
        refine ⟨?_, hrestl⟩
        cases hrest : rest with
        | nil =>
          have : e ∈ news := List.mem_of_mem_head? (by
            rw [hrest] at he
            simpa using he)
          exact hnewslab e this
        | cons r0 rest' =>
          have : e = r0 := by
            rw [hrest] at he
            simpa using he.symm
          subst this
          exact hrestl e (by rw [hrest]; simp)
  refine ⟨?_, ?_, ?_, ?_, ?_, hclosed', ?_, hvmono _ hsv, ?_⟩
  · -- vis_eq
    intro z
    rw [hvis' z, hve z, hndc]
    simp only [List.map_append, List.mem_append, List.mem_cons,
      Finset.mem_insert]
    tauto
  · -- disj
    intro z hz hins
    rw [List.map_append, List.mem_append] at hz
    rcases Finset.mem_insert.mp hins with rfl | hzP
    · rcases hz with h | h
      · exact hpnotrest h
      · obtain ⟨e, he, heq⟩ := List.mem_map.mp h
        exact hnewsfresh e he (heq ▸ hpvis)
    · rcases hz with h | h
      · exact hdj z (by rw [hndc]; exact List.mem_cons_of_mem p h) hzP
      · obtain ⟨e, he, heq⟩ := List.mem_map.mp h
        exact hnewsfresh e he (heq ▸ hPsub z hzP)
  · -- qnodup
    rw [List.map_append]
    refine List.Nodup.append hrestnd hnodup ?_
    intro z hz1 hz2
    obtain ⟨e, he, heq⟩ := List.mem_map.mp hz2
    exact hnewsfresh e he (heq ▸ hrestvis z hz1)
  · -- labels
    intro e he
    rcases List.mem_append.mp he with h | h
    · exact hlb e (List.mem_cons_of_mem _ h)
    · rw [hnewslab e h]
      exact hnewsshort e h
  · -- sorted
    obtain ⟨D, qa, qb, hqeq, hqa, hqb⟩ := hso
    cases qa with
    | nil =>
      have hqb' : qb = (p, d) :: rest := by simpa using hqeq.symm
      have hrestl : ∀ e' ∈ rest, e'.2 = d := by
        intro e' he'
        have h1 := hqb e' (by rw [hqb']; exact List.mem_cons_of_mem _ he')
        have h2 := hqb (p, d) (by rw [hqb']; simp)
        simp only at h2
        omega
      exact ⟨d, rest, news, rfl, hrestl, hnewslab⟩
    | cons e0 qa' =>
      have he0 : e0 = (p, d) ∧ rest = qa' ++ qb := by
        have : (p, d) :: rest = e0 :: (qa' ++ qb) := by simpa using hqeq
        exact ⟨(List.cons.injEq _ _ _ _ ▸ this).1.symm,
          (List.cons.injEq _ _ _ _ ▸ this).2⟩
      have hdD : d = D := by
        have := hqa e0 (by simp)
        rw [he0.1] at this
        simpa using this
      refine ⟨D, qa', qb ++ news, ?_, ?_, ?_⟩
      · rw [he0.2, List.append_assoc]
      · exact fun e he => hqa e (List.mem_cons_of_mem _ he)
      · intro e he
        rcases List.mem_append.mp he with h | h
        · exact hqb e h
        · rw [hnewslab e h]; omega
  · -- front
    intro e he u k hk
    rcases hfrontlab e he with hL | ⟨hL, hrestlab⟩
    · have hold := hfr (p, d) rfl u k hk
      exact ⟨fun h => Finset.mem_insert_of_mem (hold.1 (by omega)),
        fun h => hvmono _ (hold.2 (by omega))⟩
    · refine ⟨fun h => hbelow hrestlab u k hk (by omega), ?_⟩
      intro hkL
      have hk' : IsShortest g t s u (d + 1) := by
        rw [← (by omega : k = d + 1)]
        exact hk
      obtain ⟨w, hw, hstep⟩ := isShortest_pred hk'
      have hwP : w ∈ insert p P := hbelow hrestlab w d hw (by omega)
      exact hclosed' w hwP u hstep
  · -- t ∉ insert p P
    intro hins
    rcases Finset.mem_insert.mp hins with h | h
    · exact hpt h.symm
    · exact htn h

/-- If the queue empties, the target was unreachable: the processed set is
closed under steps, contains the start, and never contained the target. -/
theorem bfs_empty_unreachable {g : Grid} {t s : Pos} {vis P : Finset Pos}
    (inv : BfsInv g t s [] vis P) : ¬Reaches g t s t := by
  obtain ⟨hve, -, -, -, -, hcl, -, hsv, htn⟩ := inv
  have hPeq : ∀ z : Pos, z ∈ vis ↔ z ∈ P := by
    intro z
    rw [hve z]
    simp
  have hwalk : ∀ (l : List Pos) (u v : Pos), u ∈ P → IsWalk g t u l v → v ∈ P := by
    intro l
    induction l with
    | nil =>
      intro u v hu hw
      cases hw
      exact hu
    | cons c cs ih =>
      intro u v hu hw
      obtain ⟨hstep, hrest⟩ := hw
      exact ih c v ((hPeq c).mp (hcl u hu c hstep)) hrest
  rintro ⟨n, l, -, hw⟩
  exact htn (hwalk l s t ((hPeq s).mp hsv) hw)

/-- Correctness of the BFS loop: given the invariant and enough fuel, it
returns `-1` exactly when the target is unreachable, and otherwise the
exact shortest walk length. -/
theorem bfsLoop_correct {g : Grid} {t s : Pos} :
    ∀ (fuel : ℕ) (q : List (Pos × ℕ)) (vis P : Finset Pos),
      BfsInv g t s q vis P →
      5 * (allCells g \ vis).card + q.length < fuel →
      (bfsLoop g t fuel q vis = -1 ∧ ¬Reaches g t s t) ∨
      (∃ d : ℕ, bfsLoop g t fuel q vis = (d : ℤ) ∧ IsShortest g t s t d) := by
  intro fuel
  induction fuel with
  | zero =>
    intro q vis P _ hm
    omega
  | succ f ih =>
    intro q vis P inv hm
    cases q with
    | nil => exact Or.inl ⟨rfl, bfs_empty_unreachable inv⟩
    | cons e rest =>
      obtain ⟨p, d⟩ := e
      have hunf : bfsLoop g t (f + 1) ((p, d) :: rest) vis =
          if p = t then (d : ℤ)
          else bfsLoop g t f
            (rest ++ (pushNbrs g t p.1 p.2 d bfsDirections vis []).2)
            (pushNbrs g t p.1 p.2 d bfsDirections vis []).1 := rfl
      by_cases hpt : p = t
      · rw [hunf, if_pos hpt]
        refine Or.inr ⟨d, rfl, ?_⟩
        have := inv.labels (p, d) (by simp)
        rw [hpt] at this
        exact this
      · rw [hunf, if_neg hpt]
        obtain ⟨news, hq2, -, -, -, h5⟩ :=
          pushNbrs_spec g t p.1 p.2 d bfsDirections vis []
        have hq2' : (pushNbrs g t p.1 p.2 d bfsDirections vis []).2 = news := by
          simpa using hq2
        have hm' : 5 * (allCells g \
              (pushNbrs g t p.1 p.2 d bfsDirections vis []).1).card +
            (rest ++ (pushNbrs g t p.1 p.2 d bfsDirections vis []).2).length
              < f := by
          rw [hq2', List.length_append]
          simp only [List.length_cons] at hm
          omega
        exact ih _ _ _ (bfs_step_inv inv hpt) hm'

/-! ## Assembling `calculate_path_distance`'s specification -/

/-- The full specification of `calculate_path_distance` when both
characters are present: it returns `-1` exactly on unreachability and the
exact shortest walk length otherwise. -/
theorem calc_path_spec {g : Grid} {c1 c2 : Char} {s t : Pos}
    (h1 : get_character_coordinates g c1 = some s)
    (h2 : get_character_coordinates g c2 = some t) :
    ∃ r : ℤ, calculate_path_distance g c1 c2 = some r ∧
      ((r = -1 ∧ ¬Reaches g t s t) ∨
        (∃ d : ℕ, r = (d : ℤ) ∧ IsShortest g t s t d)) := by
  have hcalc : calculate_path_distance g c1 c2 =
      some (bfsLoop g t (5 * (gridCols g * gridRows g) + 2) [(s, 0)] {s}) := by
    unfold calculate_path_distance
    rw [h1, h2]
  have hcardA : (allCells g).card = gridCols g * gridRows g := by
    simp [allCells]
  have hm : 5 * (allCells g \ {s}).card + [(s, 0)].length
      < 5 * (gridCols g * gridRows g) + 2 := by
    have hsub : (allCells g \ {s}).card ≤ (allCells g).card :=
      Finset.card_le_card (Finset.sdiff_subset)
    simp only [List.length_cons, List.length_nil]
    omega
  have := bfsLoop_correct (5 * (gridCols g * gridRows g) + 2) [(s, 0)] {s} ∅
    (bfsInv_init g t s) hm
  rcases this with ⟨hres, hunr⟩ | ⟨d, hres, hshort⟩
  · exact ⟨-1, by rw [hcalc, hres], Or.inl ⟨rfl, hunr⟩⟩
  · exact ⟨(d : ℤ), by rw [hcalc, hres], Or.inr ⟨d, rfl, hshort⟩⟩

/-- Claim C2 (confirmed).  `calculate_path_distance` returns the length of
a shortest 4-directional walk from `char1`'s cell to `char2`'s cell (each
step entering an in-bounds cell that is open or the target cell): it
returns `0` iff the cells coincide, the exact shortest length when a walk
exists, and the sentinel `-1` iff no walk exists. -/
theorem claimC2 {n m : ℕ} {g : Grid} {c1 c2 : Char} {s t : Pos}
    (_hrect : Rect n m g)
    (h1 : get_character_coordinates g c1 = some s)
    (h2 : get_character_coordinates g c2 = some t) :
    ∃ r : ℤ, calculate_path_distance g c1 c2 = some r ∧
      (r = 0 ↔ s = t) ∧
      (r = -1 ↔ ¬Reaches g t s t) ∧
      (∀ d : ℕ, r = (d : ℤ) → IsShortest g t s t d) ∧
      (Reaches g t s t → ∃ d : ℕ, r = (d : ℤ) ∧ IsShortest g t s t d) := by
  obtain ⟨r, hcalc, hspec⟩ := calc_path_spec h1 h2
  refine ⟨r, hcalc, ?_, ?_, ?_, ?_⟩
  · constructor
    · intro hr0
      rcases hspec with ⟨hm1, -⟩ | ⟨d, hd, hshort⟩
      · omega
      · have : d = 0 := by omega
        subst this
        exact (hasWalk_zero.mp hshort.1).symm
    · intro hst
      rcases hspec with ⟨-, hunr⟩ | ⟨d, hd, hshort⟩
      · exact absurd ⟨0, hasWalk_zero.mpr hst.symm⟩ hunr
      · have : d = 0 := Nat.le_zero.mp (hshort.2 0 (hasWalk_zero.mpr hst.symm))
        omega
  · constructor
    · intro hr
      rcases hspec with ⟨-, hunr⟩ | ⟨d, hd, -⟩
      · exact hunr
      · omega
    · intro hunr
      rcases hspec with ⟨hm1, -⟩ | ⟨d, hd, hshort⟩
      · exact hm1
      · exact absurd ⟨d, hshort.1⟩ hunr
  · intro d hd
    rcases hspec with ⟨hm1, -⟩ | ⟨d', hd', hshort⟩
    · omega
    · have : d' = d := by omega
      subst this
      exact hshort
  · intro hreach
    rcases hspec with ⟨-, hunr⟩ | ⟨d, hd, hshort⟩
    · exact absurd hreach hunr
    · exact ⟨d, hd, hshort⟩

/-- Concrete grid for the C2 witness: `P` and `O` at distance 2 in a
corridor. -/
def c2g : Grid := parse_grid ("#####\n#P O#\n#####".toList)

/-- Witness for claim C2. -/
theorem claimC2_witness :
    Rect 3 5 c2g ∧
    (∃ r : ℤ, calculate_path_distance c2g 'P' 'O' = some r ∧
      (r = 0 ↔ ((1, 1) : Pos) = (3, 1)) ∧
      (r = -1 ↔ ¬Reaches c2g (3, 1) (1, 1) (3, 1)) ∧
      (∀ d : ℕ, r = (d : ℤ) → IsShortest c2g (3, 1) (1, 1) (3, 1) d) ∧
      (Reaches c2g (3, 1) (1, 1) (3, 1) →
        ∃ d : ℕ, r = (d : ℤ) ∧ IsShortest c2g (3, 1) (1, 1) (3, 1) d)) :=
  ⟨by decide, @claimC2 3 5 c2g 'P' 'O' (1, 1) (3, 1) (by decide) (by decide)
    (by decide)⟩

/-! ## Symmetry of the path distance -/

theorem isWalk_cells {g : Grid} {t : Pos} :
    ∀ {l : List Pos} {s v : Pos}, IsWalk g t s l v → ∀ c ∈ l, okCell g t c := by
  intro l
  induction l with
  | nil => intro s v _ c hc; simp at hc
  | cons c0 cs ih =>
    intro s v hw c hc
    rcases List.mem_cons.mp hc with rfl | hc'
    · exact hw.1.2
    · exact ih hw.2 c hc'

theorem isWalk_getLast {g : Grid} {t : Pos} :
    ∀ {l : List Pos} {s v : Pos}, IsWalk g t s l v → ∀ h : l ≠ [],
      l.getLast h = v := by
  intro l
  induction l with
  | nil => intro s v _ h; exact absurd rfl h
  | cons c0 cs ih =>
    intro s v hw h
    cases cs with
    | nil =>
      obtain ⟨-, hrest⟩ := hw
      cases hrest
      rfl
    | cons c1 cs' =>
      rw [List.getLast_cons (by simp)]
      exact ih hw.2 (by simp)

theorem isWalk_append_split {g : Grid} {t : Pos} :
    ∀ {l1 l2 : List Pos} {s v : Pos}, IsWalk g t s (l1 ++ l2) v →
      ∃ w, IsWalk g t s l1 w ∧ IsWalk g t w l2 v := by
  intro l1
  induction l1 with
  | nil => intro l2 s v hw; exact ⟨s, rfl, hw⟩
  | cons c0 cs ih =>
    intro l2 s v hw
    obtain ⟨hstep, hrest⟩ := hw
    obtain ⟨w, hw1, hw2⟩ := ih hrest
    exact ⟨w, ⟨hstep, hw1⟩, hw2⟩

/-- A shortest walk to the target never visits the target internally, so
all its intermediate cells are open. -/
theorem min_walk_internal_open {g : Grid} {s t : Pos} {d : ℕ}
    (h : IsShortest g t s t d) :
    ∃ l : List Pos, l.length = d ∧ IsWalk g t s l t ∧
      ∀ c ∈ l.dropLast, getCell g c.1 c.2 = ' ' := by
  obtain ⟨l, hlen, hw⟩ := h.1
  refine ⟨l, hlen, hw, ?_⟩
  intro c hc
  have hcl : c ∈ l := List.dropLast_subset l hc
  have hok := isWalk_cells hw c hcl
  rcases hok.2.2 with hsp | hct
  · exact hsp
  · -- an internal occurrence of the target would truncate the walk
    exfalso
    rw [hct] at hc hcl
    obtain ⟨l1, l2, hsplit⟩ := List.append_of_mem hc
    have hlne : l ≠ [] := by
      intro hcon
      rw [hcon] at hc
      simp at hc
    have hlast : l.getLast hlne = t := isWalk_getLast hw hlne
    have hldec : l = l.dropLast ++ [t] := by
      conv_lhs => rw [← List.dropLast_append_getLast hlne]
      rw [hlast]
    rw [hsplit] at hldec
    have hldec' : l = (l1 ++ [t]) ++ (l2 ++ [t]) := by
      rw [hldec]
      simp
    have hw' : IsWalk g t s ((l1 ++ [t]) ++ (l2 ++ [t])) t := by
      rw [← hldec']
      exact hw
    obtain ⟨w, hw1, -⟩ := isWalk_append_split hw'
    have hwc : w = t := by
      have := isWalk_getLast hw1 (by simp)
      simpa using this.symm
    have hshorter : HasWalk g t s t (l1.length + 1) := by
      refine ⟨l1 ++ [t], by simp, ?_⟩
      rw [hwc] at hw1
      exact hw1
    have hlen2 : l.length = l1.length + 1 + (l2.length + 1) := by
      rw [hldec']
      simp
      omega
    have := h.2 _ hshorter
    omega

/-- Reversing a walk whose intermediate cells are all open. -/
theorem isWalk_reverse_aux {g : Grid} {t t2 : Pos} :
    ∀ (l : List Pos) (s v : Pos), l ≠ [] → IsWalk g t s l v →
      (∀ c ∈ l.dropLast, getCell g c.1 c.2 = ' ') →
      okCell g t2 s →
      IsWalk g t2 v ((s :: l.dropLast).reverse) s := by
  intro l
  induction l with
  | nil => intro s v hne _ _ _; exact absurd rfl hne
  | cons c cs ih =>
    intro s v hne hw hopen hs
    obtain ⟨hstep, hrest⟩ := hw
    cases cs with
    | nil =>
      cases hrest
      exact ⟨⟨adjStep_symm hstep.1, hs⟩, rfl⟩
    | cons c1 cs' =>
      have hdl : (c :: c1 :: cs').dropLast = c :: (c1 :: cs').dropLast := rfl
      have hcopen : getCell g c.1 c.2 = ' ' := by
        apply hopen
        rw [hdl]
        simp
      have hcok : okCell g t2 c := ⟨hstep.2.1, hstep.2.2.1, Or.inl hcopen⟩
      have hih := ih c v (by simp) hrest (by
        intro c' hc'
        apply hopen
        rw [hdl]
        exact List.mem_cons_of_mem _ hc') hcok
      have hsnoc := isWalk_snoc hih ⟨adjStep_symm hstep.1, hs⟩
      have hrw : (s :: (c :: c1 :: cs').dropLast).reverse
          = (c :: (c1 :: cs').dropLast).reverse ++ [s] := by
        rw [hdl]
        simp
      rw [hrw]
      exact hsnoc

/-- A shortest walk toward `t` reverses into a walk of the same length
toward `s` (only the bounds of `s` matter: as the new target, its cell
content is irrelevant). -/
theorem hasWalk_symm {g : Grid} {s t : Pos} {d : ℕ}
    (hb1 : s.1 < gridCols g) (hb2 : s.2 < gridRows g)
    (h : IsShortest g t s t d) : HasWalk g s t s d := by
  cases d with
  | zero =>
    have := hasWalk_zero.mp h.1
    exact hasWalk_zero.mpr this.symm
  | succ d' =>
    obtain ⟨l, hlen, hw, hopen⟩ := min_walk_internal_open h
    have hlne : l ≠ [] := by
      intro hcon
      rw [hcon] at hlen
      simp at hlen
    have hrev := isWalk_reverse_aux l s t hlne hw hopen
      ⟨hb1, hb2, Or.inr rfl⟩
    refine ⟨(s :: l.dropLast).reverse, ?_, hrev⟩
    have : l.dropLast.length = l.length - 1 := by simp
    simp only [List.length_reverse, List.length_cons]
    omega

theorem reaches_symm {g : Grid} {s t : Pos}
    (hb1 : s.1 < gridCols g) (hb2 : s.2 < gridRows g)
    (h : Reaches g t s t) : Reaches g s t s := by
  obtain ⟨d, hd⟩ := exists_shortest h
  exact ⟨d, hasWalk_symm hb1 hb2 hd⟩

/-- Claim C10 (confirmed).  `calculate_path_distance` is symmetric in the
two characters, whenever both occur in a rectangular grid. -/
theorem claimC10 {n m : ℕ} {g : Grid} {a b : Char} {pa pb : Pos}
    (hr : Rect n m g)
    (h1 : get_character_coordinates g a = some pa)
    (h2 : get_character_coordinates g b = some pb) :
    calculate_path_distance g a b = calculate_path_distance g b a := by
  have hn : 0 < n := by
    have := (coords_spec h1).1
    rw [hr.1] at this
    omega
  have hcols : gridCols g = m := gridCols_of_rect hr hn
  have hboundsa : pa.1 < gridCols g ∧ pa.2 < gridRows g := by
    obtain ⟨hy, hx, -⟩ := coords_spec h1
    refine ⟨?_, hy⟩
    rw [hcols]
    rw [rect_getD_length hr (by rw [← hr.1]; exact hy)] at hx
    exact hx
  have hboundsb : pb.1 < gridCols g ∧ pb.2 < gridRows g := by
    obtain ⟨hy, hx, -⟩ := coords_spec h2
    refine ⟨?_, hy⟩
    rw [hcols]
    rw [rect_getD_length hr (by rw [← hr.1]; exact hy)] at hx
    exact hx
  obtain ⟨r1, hc1, hs1⟩ := calc_path_spec h1 h2
  obtain ⟨r2, hc2, hs2⟩ := calc_path_spec h2 h1
  rw [hc1, hc2]
  congr 1
  rcases hs1 with ⟨hr1, hu1⟩ | ⟨d1, hd1, hsh1⟩
  · rcases hs2 with ⟨hr2, hu2⟩ | ⟨d2, hd2, hsh2⟩
    · rw [hr1, hr2]
    · exact absurd (reaches_symm hboundsb.1 hboundsb.2 ⟨d2, hsh2.1⟩) hu1
  · rcases hs2 with ⟨hr2, hu2⟩ | ⟨d2, hd2, hsh2⟩
    · exact absurd (reaches_symm hboundsa.1 hboundsa.2 ⟨d1, hsh1.1⟩) hu2
    · have hle1 : d2 ≤ d1 :=
        hsh2.2 d1 (hasWalk_symm hboundsa.1 hboundsa.2 hsh1)
      have hle2 : d1 ≤ d2 :=
        hsh1.2 d2 (hasWalk_symm hboundsb.1 hboundsb.2 hsh2)
      rw [hd1, hd2]
      omega

/-- Witness for claim C10. -/
theorem claimC10_witness :
    Rect 3 5 c2g ∧
    calculate_path_distance c2g 'P' 'O' = calculate_path_distance c2g 'O' 'P' :=
  ⟨by decide, @claimC10 3 5 c2g 'P' 'O' (1, 1) (3, 1) (by decide) (by decide)
    (by decide)⟩

/-! ## Maze generation: open cells and the border invariant -/

/-- The open (carved) cells of an `n × m` grid. -/
def openCells (n m : ℕ) (g : Grid) : Finset Pos :=
  (Finset.range m ×ˢ Finset.range n).filter (fun c => getCell g c.1 c.2 = ' ')

theorem mem_openCells {n m : ℕ} {g : Grid} {c : Pos} :
    c ∈ openCells n m g ↔ c.1 < m ∧ c.2 < n ∧ getCell g c.1 c.2 = ' ' := by
  simp only [openCells, Finset.mem_filter, Finset.mem_product, Finset.mem_range]
  tauto

/-- All border cells (of an in-range position) are walls. -/
def borderWalls (n m : ℕ) (g : Grid) : Prop :=
  ∀ c : Pos, c.1 < m → c.2 < n →
    (c.1 = 0 ∨ c.1 = m - 1 ∨ c.2 = 0 ∨ c.2 = n - 1) →
    getCell g c.1 c.2 = '#'

/-- Setting an interior cell preserves the border. -/
theorem borderWalls_setCell {n m : ℕ} {g : Grid} (hb : borderWalls n m g)
    {a b : ℕ} (ha : 1 ≤ a) (ha2 : a ≤ m - 2) (hbb : 1 ≤ b) (hb2 : b ≤ n - 2)
    (hm : 3 ≤ m) (hn : 3 ≤ n) (c : Char) :
    borderWalls n m (setCell g a b c) := by
  intro z hz1 hz2 hzb
  rw [getCell_setCell_ne]
  · exact hb z hz1 hz2 hzb
  · intro ⟨h1, h2⟩
    omega

theorem inserts_perm {α : Type} (a : α) :
    ∀ (l : List α), ∀ q ∈ inserts a l, q.Perm (a :: l) := by
  intro l
  induction l with
  | nil =>
    intro q hq
    simp only [inserts, List.mem_singleton] at hq
    subst hq
    exact List.Perm.refl _
  | cons x xs ih =>
    intro q hq
    rcases List.mem_cons.mp hq with rfl | hq'
    · exact List.Perm.refl _
    · obtain ⟨b, hb, rfl⟩ := List.mem_map.mp hq'
      exact ((ih b hb).cons x).trans (List.Perm.swap a x xs)

theorem permsOf_perm {α : Type} :
    ∀ (l : List α), ∀ q ∈ permsOf l, q.Perm l := by
  intro l
  induction l with
  | nil =>
    intro q hq
    simp only [permsOf, List.mem_singleton] at hq
    subst hq
    exact List.Perm.refl _
  | cons x xs ih =>
    intro q hq
    simp only [permsOf, List.mem_flatMap] at hq
    obtain ⟨p, hp, hq'⟩ := hq
    exact (inserts_perm x p q hq').trans ((ih p hp).cons x)

theorem shuffled_mem (r : ℕ) : ∀ d ∈ shuffled r, d ∈ carveDirections := by
  intro d hd
  unfold shuffled at hd
  have hlen : 0 < (permsOf carveDirections).length := by decide
  rw [List.getD_eq_getElem _ _ (Nat.mod_lt _ hlen)] at hd
  have hperm := List.getElem_mem
    (l := permsOf carveDirections) (Nat.mod_lt r hlen)
  exact ((permsOf_perm _ _ hperm).mem_iff).mp hd

/-- The carver only writes to strictly interior cells, so it preserves the
border.  (`x < m`, `y < n` bound the current cell; the direction list may
be any subset of the carver's offsets.) -/
theorem carveD_border (rs : ℕ → ℕ) (n m : ℕ) (hm : 3 ≤ m) (hn : 3 ≤ n) :
    ∀ (fuel x y : ℕ) (dirs : List (ℤ × ℤ)) (g : Grid) (k v : ℕ),
      x < m → y < n → (∀ dd ∈ dirs, dd ∈ carveDirections) →
      borderWalls n m g →
      borderWalls n m (carveD rs n m fuel x y dirs g k v).1 := by
  intro fuel
  induction fuel with
  | zero =>
    intro x y dirs g k v _ _ _ hb
    exact hb
  | succ f ih =>
    intro x y dirs g k v hx hy hdirs hb
    cases dirs with
    | nil => exact hb
    | cons dd rest =>
      obtain ⟨dx, dy⟩ := dd
      have hddc : (dx, dy) ∈ carveDirections := hdirs (dx, dy) (by simp)
      have hrest : ∀ d ∈ rest, d ∈ carveDirections :=
        fun d hd => hdirs d (by simp [hd])
      rw [carveD]
      split
      case isTrue hcond =>
        obtain ⟨hy0, hylt, hx0, hxlt, hwall⟩ := hcond
        have hdxy : (dx = 0 ∧ (dy = 2 ∨ dy = -2)) ∨
            ((dx = 2 ∨ dx = -2) ∧ dy = 0) := by
          simp only [carveDirections, List.mem_cons, List.not_mem_nil,
            or_false] at hddc
          rcases hddc with h | h | h | h <;>
            simp only [Prod.mk.injEq] at h <;> omega
        have hb2 : borderWalls n m
            (setCell (setCell g ((x : ℤ) + dx).toNat ((y : ℤ) + dy).toNat ' ')
              ((x : ℤ) + dx / 2).toNat ((y : ℤ) + dy / 2).toNat ' ') := by
          apply borderWalls_setCell
          · apply borderWalls_setCell hb _ _ _ _ hm hn
            all_goals omega
          all_goals
            first
            | exact hm
            | exact hn
            | (rcases hdxy with ⟨h1, h2 | h2⟩ | ⟨h1 | h1, h2⟩ <;>
                subst h1 <;> subst h2 <;> omega)
        have hbmid := ih ((x : ℤ) + dx).toNat ((y : ℤ) + dy).toNat
          (shuffled (rs k))
          (setCell (setCell g ((x : ℤ) + dx).toNat ((y : ℤ) + dy).toNat ' ')
            ((x : ℤ) + dx / 2).toNat ((y : ℤ) + dy / 2).toNat ' ')
          (k + 1) (v + 1) (by omega) (by omega) (shuffled_mem (rs k)) hb2
        exact ih x y rest _ _ _ hx hy hrest hbmid
      case isFalse hcond =>
        exact ih x y rest g k v hx hy hrest hb

theorem getD_replicate {α : Type} (a d : α) (n i : ℕ) :
    (List.replicate n a).getD i d = if i < n then a else d := by
  induction n generalizing i with
  | zero => simp
  | succ n' ih =>
    cases i with
    | zero => simp [List.replicate]
    | succ i' =>
      rw [List.replicate, List.getD_cons_succ, ih]
      simp only [Nat.succ_lt_succ_iff]

theorem getCell_initialize (n m x y : ℕ) :
    getCell (initialize_grid n m) x y = '#' := by
  unfold getCell initialize_grid
  rw [getD_replicate]
  split
  · rw [getD_replicate]
    split <;> rfl
  · rfl

theorem initialize_rect (n m : ℕ) : Rect n m (initialize_grid n m) := by
  refine ⟨by simp [initialize_grid], ?_⟩
  intro r hr
  rw [List.eq_of_mem_replicate hr]
  simp

theorem pyChoice_mem {l : List ℕ} (hl : l ≠ []) (r : ℕ) : pyChoice l r ∈ l := by
  unfold pyChoice
  have hlen : 0 < l.length := List.length_pos.mpr hl
  rw [List.getD_eq_getElem _ _ (Nat.mod_lt _ hlen)]
  exact List.getElem_mem _

theorem oddRange_spec {b : ℕ} {a : ℕ} (h : a ∈ oddRange b) :
    a % 2 = 1 ∧ 1 ≤ a ∧ a < b := by
  unfold oddRange at h
  rw [List.mem_range'] at h
  obtain ⟨i, hi, rfl⟩ := h
  omega

/-- Claim C3 (corrected: amended form).  For odd `n` and odd `m` (at least
5), every border cell of the generated maze is a wall, whatever the random
choices.  (For even `m` or `n` the random start cell can itself lie on the
last column/row — see the counterexample — but the carving only ever
writes strictly interior cells.) -/
theorem claimC3_amended {n m : ℕ} (hn : 5 ≤ n) (hm : 5 ≤ m)
    (hno : n % 2 = 1) (hmo : m % 2 = 1) (rs : ℕ → ℕ) :
    ∀ c : Pos, c.1 < m → c.2 < n →
      (c.1 = 0 ∨ c.1 = m - 1 ∨ c.2 = 0 ∨ c.2 = n - 1) →
      getCell (generate_maze n m rs).1 c.1 c.2 = '#' := by
  intro c hc1 hc2 hcb
  have hsx := oddRange_spec (pyChoice_mem (l := oddRange m) (by
    unfold oddRange
    simp only [ne_eq, List.range'_eq_nil]
    omega) (rs 0))
  have hsy := oddRange_spec (pyChoice_mem (l := oddRange n) (by
    unfold oddRange
    simp only [ne_eq, List.range'_eq_nil]
    omega) (rs 1))
  set sx := pyChoice (oddRange m) (rs 0) with hsxdef
  set sy := pyChoice (oddRange n) (rs 1) with hsydef
  have hb0 : borderWalls n m
      (setCell (initialize_grid n m) sx sy ' ') := by
    apply borderWalls_setCell _ _ _ _ _ (by omega) (by omega)
    · intro z hz1 hz2 hzb
      exact getCell_initialize n m z.1 z.2
    · omega
    · omega
    · omega
    · omega
  have hfinal := carveD_border rs n m (by omega) (by omega) (5 * (n * m) + 5)
    sx sy (shuffled (rs 2)) (setCell (initialize_grid n m) sx sy ' ') 3 1
    (by omega) (by omega) (shuffled_mem (rs 2)) hb0
  exact hfinal c hc1 hc2 hcb

/-- Claim C3 (corrected: counterexample).  With `m = 6` even, the random
start cell can be chosen on the last column: the returned 5×6 grid has an
open cell at `(5, 1)`, which lies on the border (`5 = m - 1`). -/
theorem claimC3_counterexample :
    (5 : ℕ) ≤ 5 ∧ (5 : ℕ) ≤ 6 ∧ (5 : ℕ) = 6 - 1 ∧ (1 : ℕ) < 5 ∧
    getCell (generate_maze 5 6 (fun k => if k = 0 then 2 else 0)).1 5 1 = ' ' := by
  refine ⟨by decide, by decide, by decide, by decide, ?_⟩
  decide

/-- Witness for the amended claim C3, at the border cell `(0, 2)` of a
5×5 maze. -/
theorem claimC3_witness :
    getCell (generate_maze 5 5 (fun _ => 0)).1 0 2 = '#' :=
  claimC3_amended (by decide) (by decide) (by decide) (by decide)
    (fun _ => 0) (0, 2) (by decide) (by decide) (by decide)

/-! ## The carve invariant: the open cells form a subdivided tree -/

/-- Reachability inside a set of cells through 4-adjacent steps. -/
def ReachIn (S : Finset Pos) (a b : Pos) : Prop :=
  Relation.ReflTransGen (fun u v => u ∈ S ∧ v ∈ S ∧ adjStep u v) a b

theorem reachIn_mono {S T : Finset Pos} (hST : ∀ c ∈ S, c ∈ T) {a b : Pos}
    (h : ReachIn S a b) : ReachIn T a b := by
  refine Relation.ReflTransGen.mono ?_ h
  intro u v ⟨h1, h2, h3⟩
  exact ⟨hST u h1, hST v h2, h3⟩

theorem reachIn_symm {S : Finset Pos} {a b : Pos} (h : ReachIn S a b) :
    ReachIn S b a := by
  induction h with
  | refl => exact Relation.ReflTransGen.refl
  | tail hab hbc ih =>
    obtain ⟨h1, h2, h3⟩ := hbc
    exact Relation.ReflTransGen.trans
      (Relation.ReflTransGen.single ⟨h2, h1, adjStep_symm h3⟩) ih

/-- Invariant maintained by the carver.  `par`/`dp` are a parent map and a
depth map witnessing that every adjacency between open cells is a
tree edge (each edge joins a cell to its parent, one level up). -/
structure CarveInv (n m : ℕ) (s₀ : Pos) (g : Grid) (par : Pos → Pos)
    (dp : Pos → ℕ) : Prop where
  shape : Rect n m g
  root_mem : s₀ ∈ openCells n m g
  parity : ∀ c ∈ openCells n m g, ¬(c.1 % 2 = 0 ∧ c.2 % 2 = 0)
  midcl_h : ∀ c ∈ openCells n m g, c.1 % 2 = 0 →
    1 ≤ c.1 ∧ (c.1 - 1, c.2) ∈ openCells n m g ∧
      (c.1 + 1, c.2) ∈ openCells n m g
  midcl_v : ∀ c ∈ openCells n m g, c.2 % 2 = 0 →
    1 ≤ c.2 ∧ (c.1, c.2 - 1) ∈ openCells n m g ∧
      (c.1, c.2 + 1) ∈ openCells n m g
  conn : ∀ c ∈ openCells n m g, ReachIn (openCells n m g) s₀ c
  par_spec : ∀ a b : Pos, a ∈ openCells n m g → b ∈ openCells n m g →
    adjStep a b →
    (par a = b ∧ dp a = dp b + 1) ∨ (par b = a ∧ dp b = dp a + 1)

theorem prod_ne_iff {a b : Pos} : a ≠ b ↔ ¬(a.1 = b.1 ∧ a.2 = b.2) := by
  rw [ne_eq, Prod.ext_iff]

/-- Opening two distinct in-range cells inserts them into the open set. -/
theorem openCells_double_set {n m : ℕ} {g : Grid} (hr : Rect n m g)
    {mid dest : Pos} (hmb1 : mid.1 < m) (hmb2 : mid.2 < n)
    (hdb1 : dest.1 < m) (hdb2 : dest.2 < n) (hne : mid ≠ dest) :
    openCells n m (setCell (setCell g dest.1 dest.2 ' ') mid.1 mid.2 ' ')
      = insert dest (insert mid (openCells n m g)) := by
  have hr1 : Rect n m (setCell g dest.1 dest.2 ' ') := hr.setCell_pres _ _ _
  have hmidself : getCell (setCell (setCell g dest.1 dest.2 ' ')
      mid.1 mid.2 ' ') mid.1 mid.2 = ' ' :=
    getCell_setCell_self _ _ _ _ (by rw [hr1.1]; exact hmb2)
      (by rw [rect_getD_length hr1 hmb2]; exact hmb1)
  have hdestself : getCell (setCell (setCell g dest.1 dest.2 ' ')
      mid.1 mid.2 ' ') dest.1 dest.2 = ' ' := by
    rw [getCell_setCell_ne _ _ _ _ _ _ (by
      intro ⟨h1, h2⟩
      exact hne (Prod.ext h1.symm h2.symm))]
    exact getCell_setCell_self _ _ _ _ (by rw [hr.1]; exact hdb2)
      (by rw [rect_getD_length hr hdb2]; exact hdb1)
  ext z
  rw [mem_openCells, Finset.mem_insert, Finset.mem_insert, mem_openCells]
  by_cases hzd : z = dest
  · subst hzd
    simp only [true_or, iff_true]
    exact ⟨hdb1, hdb2, hdestself⟩
  · by_cases hzm : z = mid
    · subst hzm
      simp only [hzd, false_or, true_or, iff_true]
      exact ⟨hmb1, hmb2, hmidself⟩
    · simp only [hzd, hzm, false_or]
      have hunch : getCell (setCell (setCell g dest.1 dest.2 ' ')
          mid.1 mid.2 ' ') z.1 z.2 = getCell g z.1 z.2 := by
        rw [getCell_setCell_ne _ _ _ _ _ _ (prod_ne_iff.mp hzm),
          getCell_setCell_ne _ _ _ _ _ _ (prod_ne_iff.mp hzd)]
      rw [hunch]

/-- The key step: opening the intermediate cell and the destination cell
of one carve move preserves the invariant, enlarging the open set by
exactly the two new cells (a subdivided tree edge hung off `cur`). -/
theorem carve_insert {n m : ℕ} {s₀ : Pos} {g : Grid} {par : Pos → Pos}
    {dp : Pos → ℕ} (inv : CarveInv n m s₀ g par dp)
    {cur mid dest : Pos}
    (hcur : cur ∈ openCells n m g)
    (hcuro : cur.1 % 2 = 1 ∧ cur.2 % 2 = 1)
    (hdesto : dest.1 % 2 = 1 ∧ dest.2 % 2 = 1)
    (hmido : (mid.1 % 2 = 0 ∧ mid.2 % 2 = 1) ∨ (mid.1 % 2 = 1 ∧ mid.2 % 2 = 0))
    (hadj1 : adjStep cur mid) (hadj2 : adjStep mid dest)
    (hlat : ∀ w : Pos, adjStep w mid → w.1 % 2 = 1 → w.2 % 2 = 1 →
      w = cur ∨ w = dest)
    (hdest_wall : getCell g dest.1 dest.2 = '#')
    (hmb1 : mid.1 < m) (hmb2 : mid.2 < n)
    (hdb1 : dest.1 < m) (hdb2 : dest.2 < n) :
    CarveInv n m s₀ (setCell (setCell g dest.1 dest.2 ' ') mid.1 mid.2 ' ')
      (Function.update (Function.update par mid cur) dest mid)
      (Function.update (Function.update dp mid (dp cur + 1)) dest (dp cur + 2)) ∧
    openCells n m (setCell (setCell g dest.1 dest.2 ' ') mid.1 mid.2 ' ')
      = insert dest (insert mid (openCells n m g)) ∧
    dest ∉ openCells n m g ∧ mid ∉ openCells n m g ∧ mid ≠ dest ∧
    (openCells n m (setCell (setCell g dest.1 dest.2 ' ') mid.1 mid.2 ' ')).card
      = (openCells n m g).card + 2 := by
  have hmd : mid ≠ dest := by
    rw [prod_ne_iff]
    rcases hmido with ⟨h1, h2⟩ | ⟨h1, h2⟩ <;> omega
  have hcm : cur ≠ mid := by
    rw [prod_ne_iff]
    rcases hmido with ⟨h1, h2⟩ | ⟨h1, h2⟩ <;> omega
  have hdnotin : dest ∉ openCells n m g := by
    rw [mem_openCells]
    rintro ⟨-, -, hcell⟩
    rw [hdest_wall] at hcell
    exact absurd hcell (by decide)
  have hcd : cur ≠ dest := by
    intro hcon
    rw [hcon] at hcur
    exact hdnotin hcur
  -- the two lattice endpoints of `mid` are `cur` and `dest`, so if `mid`
  -- were already open its closure would force `dest` open as well
  have hmnotin : mid ∉ openCells n m g := by
    intro hmem
    rcases hmido with ⟨h1, h2⟩ | ⟨h1, h2⟩
    · obtain ⟨hge, hem, hep⟩ := inv.midcl_h mid hmem h1
      have hadjm : adjStep (mid.1 - 1, mid.2) mid := by
        unfold adjStep
        dsimp only
        omega
      have hadjp : adjStep (mid.1 + 1, mid.2) mid := by
        unfold adjStep
        dsimp only
        omega
      have hm1 := hlat (mid.1 - 1, mid.2) hadjm (by dsimp only; omega)
        (by dsimp only; omega)
      have hm2 := hlat (mid.1 + 1, mid.2) hadjp (by dsimp only; omega)
        (by dsimp only; omega)
      rcases hm1 with hmc | hmd1
      · rcases hm2 with hmc2 | hmd2
        · have : (mid.1 - 1, mid.2) = (mid.1 + 1, mid.2) := by rw [hmc, hmc2]
          rw [Prod.mk.injEq] at this
          omega
        · rw [hmd2] at hep
          exact hdnotin hep
      · rw [hmd1] at hem
        exact hdnotin hem
    · obtain ⟨hge, hem, hep⟩ := inv.midcl_v mid hmem h2
      have hadjm : adjStep (mid.1, mid.2 - 1) mid := by
        unfold adjStep
        dsimp only
        omega
      have hadjp : adjStep (mid.1, mid.2 + 1) mid := by
        unfold adjStep
        dsimp only
        omega
      have hm1 := hlat (mid.1, mid.2 - 1) hadjm (by dsimp only; omega)
        (by dsimp only; omega)
      have hm2 := hlat (mid.1, mid.2 + 1) hadjp (by dsimp only; omega)
        (by dsimp only; omega)
      rcases hm1 with hmc | hmd1
      · rcases hm2 with hmc2 | hmd2
        · have : (mid.1, mid.2 - 1) = (mid.1, mid.2 + 1) := by rw [hmc, hmc2]
          rw [Prod.mk.injEq] at this
          omega
        · rw [hmd2] at hep
          exact hdnotin hep
      · rw [hmd1] at hem
        exact hdnotin hem
  have hSeq := openCells_double_set inv.shape hmb1 hmb2 hdb1 hdb2 hmd
  have hcard : (openCells n m (setCell (setCell g dest.1 dest.2 ' ')
      mid.1 mid.2 ' ')).card = (openCells n m g).card + 2 := by
    rw [hSeq, Finset.card_insert_of_not_mem (by
        rw [Finset.mem_insert]
        rintro (h | h)
        · exact hmd h.symm
        · exact hdnotin h),
      Finset.card_insert_of_not_mem hmnotin]
  refine ⟨?_, hSeq, hdnotin, hmnotin, hmd, hcard⟩
  have hcurS' : cur ∈ insert dest (insert mid (openCells n m g)) :=
    Finset.mem_insert_of_mem (Finset.mem_insert_of_mem hcur)
  have hmidS' : mid ∈ insert dest (insert mid (openCells n m g)) :=
    Finset.mem_insert_of_mem (Finset.mem_insert_self _ _)
  have hdestS' : dest ∈ insert dest (insert mid (openCells n m g)) :=
    Finset.mem_insert_self _ _
  have hProdcd : ¬(cur.1 = dest.1 ∧ cur.2 = dest.2) := prod_ne_iff.mp hcd
  -- no previously open cell is adjacent to the freshly carved destination
  have hnoSdest : ∀ w ∈ openCells n m g, adjStep w dest → False := by
    intro w hw hadjw
    have hwpar := inv.parity w hw
    by_cases hw1 : w.1 % 2 = 0
    · obtain ⟨hge, he1, he2⟩ := inv.midcl_h w hw hw1
      have hsplit : dest = (w.1 - 1, w.2) ∨ dest = (w.1 + 1, w.2) := by
        have : (dest.1 = w.1 - 1 ∧ dest.2 = w.2) ∨
            (dest.1 = w.1 + 1 ∧ dest.2 = w.2) := by
          unfold adjStep at hadjw
          omega
        rcases this with ⟨ha, hb⟩ | ⟨ha, hb⟩
        · exact Or.inl (Prod.ext ha hb)
        · exact Or.inr (Prod.ext ha hb)
      rcases hsplit with h | h
      · rw [← h] at he1
        exact hdnotin he1
      · rw [← h] at he2
        exact hdnotin he2
    · by_cases hw2 : w.2 % 2 = 0
      · obtain ⟨hge, he1, he2⟩ := inv.midcl_v w hw hw2
        have hsplit : dest = (w.1, w.2 - 1) ∨ dest = (w.1, w.2 + 1) := by
          have : (dest.1 = w.1 ∧ dest.2 = w.2 - 1) ∨
              (dest.1 = w.1 ∧ dest.2 = w.2 + 1) := by
            unfold adjStep at hadjw
            omega
          rcases this with ⟨ha, hb⟩ | ⟨ha, hb⟩
          · exact Or.inl (Prod.ext ha hb)
          · exact Or.inr (Prod.ext ha hb)
        rcases hsplit with h | h
        · rw [← h] at he1
          exact hdnotin he1
        · rw [← h] at he2
          exact hdnotin he2
      · -- two odd-odd cells are never adjacent
        unfold adjStep at hadjw
        omega
  -- update bookkeeping for the parent and depth maps
  have hpar_mid : Function.update (Function.update par mid cur) dest mid mid
      = cur := by
    rw [Function.update_noteq hmd, Function.update_same]
  have hpar_dest : Function.update (Function.update par mid cur) dest mid dest
      = mid := Function.update_same _ _ _
  have hdp_mid : Function.update (Function.update dp mid (dp cur + 1)) dest
      (dp cur + 2) mid = dp cur + 1 := by
    rw [Function.update_noteq hmd, Function.update_same]
  have hdp_dest : Function.update (Function.update dp mid (dp cur + 1)) dest
      (dp cur + 2) dest = dp cur + 2 := Function.update_same _ _ _
  have hpar_old : ∀ z : Pos, z ≠ mid → z ≠ dest →
      Function.update (Function.update par mid cur) dest mid z = par z := by
    intro z h1 h2
    rw [Function.update_noteq h2, Function.update_noteq h1]
  have hdp_old : ∀ z : Pos, z ≠ mid → z ≠ dest →
      Function.update (Function.update dp mid (dp cur + 1)) dest
        (dp cur + 2) z = dp z := by
    intro z h1 h2
    rw [Function.update_noteq h2, Function.update_noteq h1]
  have hdp_cur : Function.update (Function.update dp mid (dp cur + 1)) dest
      (dp cur + 2) cur = dp cur := hdp_old cur hcm hcd
  have hneS : ∀ z ∈ openCells n m g, z ≠ mid ∧ z ≠ dest := by
    intro z hz
    constructor
    · intro h
      rw [h] at hz
      exact hmnotin hz
    · intro h
      rw [h] at hz
      exact hdnotin hz
  refine ⟨(inv.shape.setCell_pres _ _ _).setCell_pres _ _ _, ?_, ?_, ?_, ?_, ?_, ?_⟩
  · -- root
    rw [hSeq]
    exact Finset.mem_insert_of_mem (Finset.mem_insert_of_mem inv.root_mem)
  · -- parity
    intro c hc
    rw [hSeq] at hc
    rcases Finset.mem_insert.mp hc with rfl | hc'
    · omega
    rcases Finset.mem_insert.mp hc' with rfl | hc''
    · rcases hmido with ⟨h1, h2⟩ | ⟨h1, h2⟩ <;> omega
    · exact inv.parity c hc''
  · -- horizontal closure
    intro c hc hc1
    rw [hSeq] at hc
    rcases Finset.mem_insert.mp hc with rfl | hc'
    · omega
    rcases Finset.mem_insert.mp hc' with rfl | hc''
    · -- the new mid cell: its endpoints are `cur` and `dest`
      rcases hmido with ⟨h1, h2⟩ | ⟨h1, h2⟩
      · have hco : (cur.1 + 1 = c.1 ∨ cur.1 = c.1 + 1) ∧ cur.2 = c.2 ∧
            (dest.1 + 1 = c.1 ∨ dest.1 = c.1 + 1) ∧ dest.2 = c.2 := by
          unfold adjStep at hadj1 hadj2
          omega
        have hge : 1 ≤ c.1 := by omega
        have hsplit : ((c.1 - 1 = cur.1 ∧ c.2 = cur.2) ∧
              (c.1 + 1 = dest.1 ∧ c.2 = dest.2)) ∨
            ((c.1 - 1 = dest.1 ∧ c.2 = dest.2) ∧
              (c.1 + 1 = cur.1 ∧ c.2 = cur.2)) := by
          omega
        rcases hsplit with ⟨⟨ha1, ha2⟩, ⟨hb1, hb2⟩⟩ | ⟨⟨ha1, ha2⟩, ⟨hb1, hb2⟩⟩
        · have hea : ((c.1 - 1, c.2) : Pos) = cur := Prod.ext ha1 ha2
          have heb : ((c.1 + 1, c.2) : Pos) = dest := Prod.ext hb1 hb2
          refine ⟨hge, ?_, ?_⟩
          · rw [hSeq, hea]
            exact hcurS'
          · rw [hSeq, heb]
            exact hdestS'
        · have hea : ((c.1 - 1, c.2) : Pos) = dest := Prod.ext ha1 ha2
          have heb : ((c.1 + 1, c.2) : Pos) = cur := Prod.ext hb1 hb2
          refine ⟨hge, ?_, ?_⟩
          · rw [hSeq, hea]
            exact hdestS'
          · rw [hSeq, heb]
            exact hcurS'
      · omega
    · obtain ⟨hge, he1, he2⟩ := inv.midcl_h c hc'' hc1
      refine ⟨hge, ?_, ?_⟩ <;> rw [hSeq]
      · exact Finset.mem_insert_of_mem (Finset.mem_insert_of_mem he1)
      · exact Finset.mem_insert_of_mem (Finset.mem_insert_of_mem he2)
  · -- vertical closure
    intro c hc hc2
    rw [hSeq] at hc
    rcases Finset.mem_insert.mp hc with rfl | hc'
    · omega
    rcases Finset.mem_insert.mp hc' with rfl | hc''
    · rcases hmido with ⟨h1, h2⟩ | ⟨h1, h2⟩
      · omega
      · have hco : (cur.2 + 1 = c.2 ∨ cur.2 = c.2 + 1) ∧ cur.1 = c.1 ∧
            (dest.2 + 1 = c.2 ∨ dest.2 = c.2 + 1) ∧ dest.1 = c.1 := by
          unfold adjStep at hadj1 hadj2
          omega
        have hge : 1 ≤ c.2 := by omega
        have hsplit : ((c.1 = cur.1 ∧ c.2 - 1 = cur.2) ∧
              (c.1 = dest.1 ∧ c.2 + 1 = dest.2)) ∨
            ((c.1 = dest.1 ∧ c.2 - 1 = dest.2) ∧
              (c.1 = cur.1 ∧ c.2 + 1 = cur.2)) := by
          omega
        rcases hsplit with ⟨⟨ha1, ha2⟩, ⟨hb1, hb2⟩⟩ | ⟨⟨ha1, ha2⟩, ⟨hb1, hb2⟩⟩
        · have hea : ((c.1, c.2 - 1) : Pos) = cur := Prod.ext ha1 ha2
          have heb : ((c.1, c.2 + 1) : Pos) = dest := Prod.ext hb1 hb2
          refine ⟨hge, ?_, ?_⟩
          · rw [hSeq, hea]
            exact hcurS'
          · rw [hSeq, heb]
            exact hdestS'
        · have hea : ((c.1, c.2 - 1) : Pos) = dest := Prod.ext ha1 ha2
          have heb : ((c.1, c.2 + 1) : Pos) = cur := Prod.ext hb1 hb2
          refine ⟨hge, ?_, ?_⟩
          · rw [hSeq, hea]
            exact hdestS'
          · rw [hSeq, heb]
            exact hcurS'
    · obtain ⟨hge, he1, he2⟩ := inv.midcl_v c hc'' hc2
      refine ⟨hge, ?_, ?_⟩ <;> rw [hSeq]
      · exact Finset.mem_insert_of_mem (Finset.mem_insert_of_mem he1)
      · exact Finset.mem_insert_of_mem (Finset.mem_insert_of_mem he2)
  · -- connectivity
    intro c hc
    rw [hSeq] at hc ⊢
    have hreachcur : ReachIn (insert dest (insert mid (openCells n m g))) s₀ cur :=
      reachIn_mono (fun z hz =>
        Finset.mem_insert_of_mem (Finset.mem_insert_of_mem hz))
        (inv.conn cur hcur)
    have hreachmid : ReachIn (insert dest (insert mid (openCells n m g))) s₀ mid :=
      Relation.ReflTransGen.tail hreachcur ⟨hcurS', hmidS', hadj1⟩
    rcases Finset.mem_insert.mp hc with rfl | hc'
    · exact Relation.ReflTransGen.tail hreachmid ⟨hmidS', hdestS', hadj2⟩
    rcases Finset.mem_insert.mp hc' with rfl | hc''
    · exact hreachmid
    · exact reachIn_mono (fun z hz =>
        Finset.mem_insert_of_mem (Finset.mem_insert_of_mem hz))
        (inv.conn c hc'')
  · -- every adjacency is a parent edge
    intro a b ha hb hadj
    rw [hSeq] at ha hb
    -- a cell of the old open set adjacent to `mid` must be `cur`
    have hmid_nbr : ∀ w, w ∈ openCells n m g → adjStep w mid → w = cur := by
      intro w hw hadjw
      have hwpar := inv.parity w hw
      have hwodd : w.1 % 2 = 1 ∧ w.2 % 2 = 1 := by
        unfold adjStep at hadjw
        rcases hmido with ⟨h1, h2⟩ | ⟨h1, h2⟩ <;> omega
      rcases hlat w hadjw hwodd.1 hwodd.2 with h | h
      · exact h
      · rw [h] at hw
        exact absurd hw hdnotin
    rcases Finset.mem_insert.mp ha with rfl | ha'
    · -- a = dest
      rcases Finset.mem_insert.mp hb with rfl | hb'
      · exact absurd hadj (adjStep_irrefl _)
      rcases Finset.mem_insert.mp hb' with rfl | hb''
      · -- dest – mid
        left
        rw [hpar_dest, hdp_dest, hdp_mid]
        exact ⟨rfl, rfl⟩
      · exact absurd (adjStep_symm hadj) (fun h => hnoSdest b hb'' h)
    rcases Finset.mem_insert.mp ha' with rfl | ha''
    · -- a = mid
      rcases Finset.mem_insert.mp hb with rfl | hb'
      · -- mid – dest
        right
        rw [hpar_dest, hdp_dest, hdp_mid]
        exact ⟨rfl, rfl⟩
      rcases Finset.mem_insert.mp hb' with rfl | hb''
      · exact absurd hadj (adjStep_irrefl _)
      · -- mid – old cell: the old cell must be `cur`
        have hbc : b = cur := hmid_nbr b hb'' (adjStep_symm hadj)
        subst hbc
        left
        rw [hpar_mid, hdp_mid, hdp_cur]
        exact ⟨rfl, rfl⟩
    · rcases Finset.mem_insert.mp hb with rfl | hb'
      · exact absurd hadj (fun h => hnoSdest a ha'' h)
      rcases Finset.mem_insert.mp hb' with rfl | hb''
      · -- old cell – mid
        have hac : a = cur := hmid_nbr a ha'' hadj
        subst hac
        right
        rw [hpar_mid, hdp_mid, hdp_cur]
        exact ⟨rfl, rfl⟩
      · -- both old: the old classification carries over
        obtain ⟨hane1, hane2⟩ := hneS a ha''
        obtain ⟨hbne1, hbne2⟩ := hneS b hb''
        rcases inv.par_spec a b ha'' hb'' hadj with ⟨h1, h2⟩ | ⟨h1, h2⟩
        · left
          rw [hpar_old a hane1 hane2, hdp_old a hane1 hane2,
            hdp_old b hbne1 hbne2]
          exact ⟨h1, h2⟩
        · right
          rw [hpar_old b hbne1 hbne2, hdp_old b hbne1 hbne2,
            hdp_old a hane1 hane2]
          exact ⟨h1, h2⟩

/-- Geometry of one carve move: destination and intermediate cell
parities, adjacencies, bounds, and the fact that the only odd-odd
neighbours of the intermediate cell are the current cell and the
destination. -/
theorem carve_geometry {x y n m : ℕ} {dx dy : ℤ}
    (hddc : (dx, dy) ∈ carveDirections)
    (hxo : x % 2 = 1) (hyo : y % 2 = 1) (hxb : x < m) (hyb : y < n)
    (hy0 : 0 < (y : ℤ) + dy) (hylt : (y : ℤ) + dy < (n : ℤ) - 1)
    (hx0 : 0 < (x : ℤ) + dx) (hxlt : (x : ℤ) + dx < (m : ℤ) - 1) :
    (((x : ℤ) + dx).toNat % 2 = 1 ∧ ((y : ℤ) + dy).toNat % 2 = 1) ∧
    ((((x : ℤ) + dx / 2).toNat % 2 = 0 ∧ ((y : ℤ) + dy / 2).toNat % 2 = 1) ∨
      (((x : ℤ) + dx / 2).toNat % 2 = 1 ∧ ((y : ℤ) + dy / 2).toNat % 2 = 0)) ∧
    adjStep (x, y) (((x : ℤ) + dx / 2).toNat, ((y : ℤ) + dy / 2).toNat) ∧
    adjStep (((x : ℤ) + dx / 2).toNat, ((y : ℤ) + dy / 2).toNat)
      (((x : ℤ) + dx).toNat, ((y : ℤ) + dy).toNat) ∧
    (∀ w : Pos,
      adjStep w (((x : ℤ) + dx / 2).toNat, ((y : ℤ) + dy / 2).toNat) →
      w.1 % 2 = 1 → w.2 % 2 = 1 →
      w = (x, y) ∨ w = (((x : ℤ) + dx).toNat, ((y : ℤ) + dy).toNat)) ∧
    ((x : ℤ) + dx / 2).toNat < m ∧ ((y : ℤ) + dy / 2).toNat < n ∧
    ((x : ℤ) + dx).toNat < m ∧ ((y : ℤ) + dy).toNat < n := by
  have hdxy : (dx = 0 ∧ (dy = 2 ∨ dy = -2)) ∨ ((dx = 2 ∨ dx = -2) ∧ dy = 0) := by
    simp only [carveDirections, List.mem_cons, List.not_mem_nil, or_false] at hddc
    rcases hddc with h | h | h | h <;>
      simp only [Prod.mk.injEq] at h <;> omega
  rcases hdxy with ⟨h1, h2 | h2⟩ | ⟨h1 | h1, h2⟩ <;> subst h1 <;> subst h2 <;>
    refine ⟨⟨by omega, by omega⟩, by omega,
      by unfold adjStep; dsimp only; omega,
      by unfold adjStep; dsimp only; omega, ?_,
      by omega, by omega, by omega, by omega⟩ <;>
    (rintro ⟨w1, w2⟩ hadjw hw1 hw2
     unfold adjStep at hadjw
     dsimp only at hadjw hw1 hw2 ⊢
     simp only [Prod.mk.injEq]
     omega)

/-- The carver preserves the tree invariant: starting from an invariant
state with the cursor on an odd-odd open cell, the resulting grid again
satisfies the invariant (for some parent/depth maps), the open-cell count
stays `2 * visited - 1`, and the open set only grows. -/
theorem carveD_inv (rs : ℕ → ℕ) (n m : ℕ) (s₀ : Pos) :
    ∀ (fuel x y : ℕ) (dirs : List (ℤ × ℤ)) (g : Grid) (k v : ℕ)
      (par : Pos → Pos) (dp : Pos → ℕ),
      CarveInv n m s₀ g par dp →
      (x, y) ∈ openCells n m g → x % 2 = 1 → y % 2 = 1 →
      (∀ dd ∈ dirs, dd ∈ carveDirections) →
      (openCells n m g).card + 1 = 2 * v →
      ∃ par' dp',
        CarveInv n m s₀ (carveD rs n m fuel x y dirs g k v).1 par' dp' ∧
        (openCells n m (carveD rs n m fuel x y dirs g k v).1).card + 1
          = 2 * (carveD rs n m fuel x y dirs g k v).2.2 ∧
        ∀ c ∈ openCells n m g,
          c ∈ openCells n m (carveD rs n m fuel x y dirs g k v).1 := by
  intro fuel
  induction fuel with
  | zero =>
    intro x y dirs g k v par dp inv _ _ _ _ hcard
    exact ⟨par, dp, inv, hcard, fun c hc => hc⟩
  | succ f ih =>
    intro x y dirs g k v par dp inv hmem hxo hyo hdirs hcard
    cases dirs with
    | nil => exact ⟨par, dp, inv, hcard, fun c hc => hc⟩
    | cons dd rest =>
      obtain ⟨dx, dy⟩ := dd
      have hddc : (dx, dy) ∈ carveDirections := hdirs (dx, dy) (by simp)
      have hrest : ∀ d ∈ rest, d ∈ carveDirections :=
        fun d hd => hdirs d (by simp [hd])
      rw [carveD]
      split
      case isTrue hcond =>
        obtain ⟨hy0, hylt, hx0, hxlt, hwall⟩ := hcond
        have hxb : x < m ∧ y < n := by
          have h := mem_openCells.mp hmem
          exact ⟨h.1, h.2.1⟩
        obtain ⟨hdesto, hmido, hadj1, hadj2, hlat, hmb1, hmb2, hdb1, hdb2⟩ :=
          carve_geometry hddc hxo hyo hxb.1 hxb.2 hy0 hylt hx0 hxlt
        obtain ⟨inv2, hS2, hdnotin, hmnotin, hmd, hcard2⟩ :=
          @carve_insert n m s₀ g par dp inv (x, y)
            (((x : ℤ) + dx / 2).toNat, ((y : ℤ) + dy / 2).toNat)
            (((x : ℤ) + dx).toNat, ((y : ℤ) + dy).toNat)
            hmem ⟨hxo, hyo⟩ hdesto hmido hadj1 hadj2 hlat hwall
            hmb1 hmb2 hdb1 hdb2
        dsimp only at hS2 hcard2
        have hdmem : ((((x : ℤ) + dx).toNat, ((y : ℤ) + dy).toNat) : Pos) ∈
            openCells n m
              (setCell (setCell g ((x : ℤ) + dx).toNat ((y : ℤ) + dy).toNat ' ')
                ((x : ℤ) + dx / 2).toNat ((y : ℤ) + dy / 2).toNat ' ') := by
          rw [hS2]
          exact Finset.mem_insert_self _ _
        have hsub2 : ∀ c ∈ openCells n m g,
            c ∈ openCells n m
              (setCell (setCell g ((x : ℤ) + dx).toNat ((y : ℤ) + dy).toNat ' ')
                ((x : ℤ) + dx / 2).toNat ((y : ℤ) + dy / 2).toNat ' ') := by
          intro c hc
          rw [hS2]
          exact Finset.mem_insert_of_mem (Finset.mem_insert_of_mem hc)
        obtain ⟨par2, dp2, hinv2, hcard2r, hmono2⟩ :=
          ih ((x : ℤ) + dx).toNat ((y : ℤ) + dy).toNat (shuffled (rs k))
            (setCell (setCell g ((x : ℤ) + dx).toNat ((y : ℤ) + dy).toNat ' ')
              ((x : ℤ) + dx / 2).toNat ((y : ℤ) + dy / 2).toNat ' ')
            (k + 1) (v + 1) _ _ inv2 hdmem hdesto.1 hdesto.2
            (shuffled_mem (rs k)) (by rw [hcard2]; omega)
        obtain ⟨par3, dp3, hinv3, hcard3, hmono3⟩ :=
          ih x y rest _ _ _ par2 dp2 hinv2
            (hmono2 (x, y) (hsub2 (x, y) hmem)) hxo hyo hrest hcard2r
        exact ⟨par3, dp3, hinv3, hcard3,
          fun c hc => hmono3 c (hmono2 c (hsub2 c hc))⟩
      case isFalse hcond =>
        exact ih x y rest g k v par dp inv hmem hxo hyo hrest hcard

/-- The adjacency graph of the open cells of a grid: vertices are the open
cells, edges the 4-adjacencies between them. -/
def mazeGraph (n m : ℕ) (g : Grid) :
    SimpleGraph {c : Pos // c ∈ openCells n m g} where
  Adj a b := adjStep a.1 b.1
  symm := fun _ _ h => adjStep_symm h
  loopless := fun a h => adjStep_irrefl a.1 h

/-- A graph each of whose edges joins a vertex to its parent (one depth
level up, for some parent and depth functions) has no cycle through a
vertex of maximal depth on the cycle. -/
theorem cycle_max_aux {V : Type} {G : SimpleGraph V} {β : Type} {val : V → β}
    (hval : Function.Injective val) {f : V → β} {dp : V → ℕ}
    (hpar : ∀ a b : V, G.Adj a b →
      (f a = val b ∧ dp a = dp b + 1) ∨ (f b = val a ∧ dp b = dp a + 1))
    (u : V) (c : G.Walk u u) (hcyc : c.IsCycle)
    (hmax : ∀ z ∈ c.support, dp z ≤ dp u) : False := by
  cases c with
  | nil => exact hcyc.ne_nil rfl
  | cons hadj q =>
    rename_i x
    rw [SimpleGraph.Walk.cons_isCycle_iff] at hcyc
    obtain ⟨hq_path, hedge⟩ := hcyc
    cases hq : q.reverse with
    | nil => exact hadj.ne rfl
    | cons hadj2 q2 =>
      rename_i y
      have hyedge : s(u, y) ∈ q.edges := by
        have h1 : s(u, y) ∈ q.reverse.edges := by
          rw [hq, SimpleGraph.Walk.edges_cons]
          exact List.mem_cons_self _ _
        rwa [SimpleGraph.Walk.edges_reverse, List.mem_reverse] at h1
      have hxy : x ≠ y := by
        intro he
        subst he
        exact hedge hyedge
      have hymem : y ∈ q.support := by
        have h1 : y ∈ q.reverse.support := by
          rw [hq, SimpleGraph.Walk.support_cons]
          exact List.mem_cons_of_mem _ q2.start_mem_support
        rwa [SimpleGraph.Walk.support_reverse, List.mem_reverse] at h1
      have hmx : dp x ≤ dp u := hmax x (by
        rw [SimpleGraph.Walk.support_cons]
        exact List.mem_cons_of_mem _ q.start_mem_support)
      have hmy : dp y ≤ dp u := hmax y (by
        rw [SimpleGraph.Walk.support_cons]
        exact List.mem_cons_of_mem _ hymem)
      have hfux : f u = val x := by
        rcases hpar u x hadj with ⟨h, _⟩ | ⟨_, hd⟩
        · exact h
        · omega
      have hfuy : f u = val y := by
        rcases hpar u y hadj2 with ⟨h, _⟩ | ⟨_, hd⟩
        · exact h
        · omega
      exact hxy (hval (hfux.symm.trans hfuy))

/-- A graph admitting a parent/depth labelling in which every edge joins a
vertex to its parent one depth level up is acyclic. -/
theorem isAcyclic_of_parent {V : Type} [DecidableEq V] {G : SimpleGraph V}
    {β : Type} {val : V → β} (hval : Function.Injective val)
    {f : V → β} {dp : V → ℕ}
    (hpar : ∀ a b : V, G.Adj a b →
      (f a = val b ∧ dp a = dp b + 1) ∨ (f b = val a ∧ dp b = dp a + 1)) :
    G.IsAcyclic := by
  intro v c hc
  have hsupnil : c.support ≠ [] := SimpleGraph.Walk.support_ne_nil c
  obtain ⟨u, hu⟩ : ∃ u, c.support.argmax dp = some u := by
    cases h : c.support.argmax dp with
    | none => exact absurd (List.argmax_eq_none.mp h) hsupnil
    | some u => exact ⟨u, rfl⟩
  have humem : u ∈ c.support := List.argmax_mem hu
  have hmax : ∀ z ∈ c.support, dp z ≤ dp u :=
    fun z hz => List.le_of_mem_argmax hz hu
  have hsub : ∀ z ∈ (c.rotate humem).support, z ∈ c.support := by
    intro z hz
    rw [SimpleGraph.Walk.support_eq_cons] at hz
    rcases List.mem_cons.mp hz with rfl | hz'
    · exact humem
    · exact List.mem_of_mem_tail
        (((SimpleGraph.Walk.support_rotate c humem).mem_iff).mp hz')
  exact cycle_max_aux hval hpar u (c.rotate humem) (hc.rotate humem)
    (fun z hz => hmax z (hsub z hz))

/-- In-set reachability transfers to reachability in the open-cell graph. -/
theorem reachIn_reachable {n m : ℕ} {g : Grid} {a c : Pos}
    (ha : a ∈ openCells n m g) (h : ReachIn (openCells n m g) a c) :
    ∀ hc : c ∈ openCells n m g,
      (mazeGraph n m g).Reachable ⟨a, ha⟩ ⟨c, hc⟩ := by
  induction h with
  | refl => intro hc; exact SimpleGraph.Reachable.refl _
  | tail hab hstep ih =>
    intro hc
    obtain ⟨hb1, hb2, hadj⟩ := hstep
    exact (ih hb1).trans
      (SimpleGraph.Adj.reachable
        (show (mazeGraph n m g).Adj ⟨_, hb1⟩ ⟨_, hc⟩ from hadj))

/-- A grid satisfying the carve invariant has a tree as open-cell graph. -/
theorem mazeGraph_isTree {n m : ℕ} {s₀ : Pos} {g : Grid} {par : Pos → Pos}
    {dp : Pos → ℕ} (inv : CarveInv n m s₀ g par dp) :
    (mazeGraph n m g).IsTree := by
  constructor
  · haveI : Nonempty {c : Pos // c ∈ openCells n m g} := ⟨⟨s₀, inv.root_mem⟩⟩
    refine SimpleGraph.Connected.mk ?_
    intro a b
    have h1 := reachIn_reachable inv.root_mem (inv.conn a.1 a.2) a.2
    have h2 := reachIn_reachable inv.root_mem (inv.conn b.1 b.2) b.2
    exact h1.symm.trans h2
  · exact @isAcyclic_of_parent _ _ (mazeGraph n m g) _ Subtype.val
      Subtype.val_injective (fun a => par a.1) (fun a => dp a.1)
      (fun a b hadj => inv.par_spec a.1 b.1 a.2 b.2 hadj)

/-- After opening the start cell of the all-wall grid, the open set is
exactly that one cell. -/
theorem openCells_init (n m sx sy : ℕ) (hsx : sx < m) (hsy : sy < n) :
    openCells n m (setCell (initialize_grid n m) sx sy ' ')
      = {((sx, sy) : Pos)} := by
  ext z
  rw [mem_openCells, Finset.mem_singleton]
  constructor
  · rintro ⟨hz1, hz2, hcell⟩
    by_contra hne
    rw [getCell_setCell_ne _ _ _ _ _ _ (prod_ne_iff.mp hne),
      getCell_initialize] at hcell
    exact absurd hcell (by decide)
  · rintro rfl
    refine ⟨hsx, hsy, ?_⟩
    exact getCell_setCell_self _ _ _ _
      (by simpa [initialize_grid] using hsy)
      (by rw [rect_getD_length (initialize_rect n m) hsy]; exact hsx)

/-- The invariant holds for the freshly started grid, with the start cell
as root, the constant parent map and depth zero. -/
theorem carveInv_init (n m sx sy : ℕ) (hsx : sx < m) (hsy : sy < n)
    (hsxo : sx % 2 = 1) (hsyo : sy % 2 = 1) :
    CarveInv n m (sx, sy) (setCell (initialize_grid n m) sx sy ' ')
      (fun _ => (sx, sy)) (fun _ => 0) := by
  have hS := openCells_init n m sx sy hsx hsy
  refine ⟨(initialize_rect n m).setCell_pres _ _ _, ?_, ?_, ?_, ?_, ?_, ?_⟩
  · rw [hS]
    exact Finset.mem_singleton_self _
  · intro c hc
    rw [hS, Finset.mem_singleton] at hc
    subst hc
    dsimp only
    omega
  · intro c hc h0
    rw [hS, Finset.mem_singleton] at hc
    subst hc
    dsimp only at h0
    exact absurd h0 (by omega)
  · intro c hc h0
    rw [hS, Finset.mem_singleton] at hc
    subst hc
    dsimp only at h0
    exact absurd h0 (by omega)
  · intro c hc
    rw [hS, Finset.mem_singleton] at hc
    subst hc
    exact Relation.ReflTransGen.refl
  · intro a b ha hb hadj
    rw [hS, Finset.mem_singleton] at ha hb
    subst ha
    subst hb
    exact absurd hadj (adjStep_irrefl _)

/-- `generate_maze` establishes the carve invariant (for a suitable root,
parent map and depth map), and the open-cell count is one less than twice
the number of visited lattice cells. -/
theorem generate_maze_spec (n m : ℕ) (rs : ℕ → ℕ) (hn : 5 ≤ n) (hm : 5 ≤ m) :
    ∃ s₀ par dp,
      CarveInv n m s₀ (generate_maze n m rs).1 par dp ∧
      (openCells n m (generate_maze n m rs).1).card + 1
        = 2 * (generate_maze n m rs).2 := by
  have hmne : oddRange m ≠ [] := by
    unfold oddRange
    rw [ne_eq, List.range'_eq_nil]
    omega
  have hnne : oddRange n ≠ [] := by
    unfold oddRange
    rw [ne_eq, List.range'_eq_nil]
    omega
  obtain ⟨hsxo, hsx1, hsxm⟩ := oddRange_spec (pyChoice_mem hmne (rs 0))
  obtain ⟨hsyo, hsy1, hsyn⟩ := oddRange_spec (pyChoice_mem hnne (rs 1))
  have hinv0 := carveInv_init n m (pyChoice (oddRange m) (rs 0))
    (pyChoice (oddRange n) (rs 1)) hsxm hsyn hsxo hsyo
  have hS := openCells_init n m (pyChoice (oddRange m) (rs 0))
    (pyChoice (oddRange n) (rs 1)) hsxm hsyn
  have hmem : ((pyChoice (oddRange m) (rs 0), pyChoice (oddRange n) (rs 1)) : Pos)
      ∈ openCells n m (setCell (initialize_grid n m)
        (pyChoice (oddRange m) (rs 0)) (pyChoice (oddRange n) (rs 1)) ' ') := by
    rw [hS]
    exact Finset.mem_singleton_self _
  have hcard0 : (openCells n m (setCell (initialize_grid n m)
      (pyChoice (oddRange m) (rs 0)) (pyChoice (oddRange n) (rs 1)) ' ')).card + 1
      = 2 * 1 := by
    rw [hS, Finset.card_singleton]
  obtain ⟨par', dp', hinv, hcard, hmono⟩ :=
    carveD_inv rs n m (pyChoice (oddRange m) (rs 0), pyChoice (oddRange n) (rs 1))
      (5 * (n * m) + 5) (pyChoice (oddRange m) (rs 0))
      (pyChoice (oddRange n) (rs 1)) (shuffled (rs 2))
      (setCell (initialize_grid n m) (pyChoice (oddRange m) (rs 0))
        (pyChoice (oddRange n) (rs 1)) ' ')
      3 1 _ _ hinv0 hmem hsxo hsyo (shuffled_mem (rs 2)) hcard0
  exact ⟨_, par', dp', hinv, hcard⟩

/-- Claim C1 (corrected: amended form).  For every `n, m ≥ 5` and every
random stream, the open cells of `generate_maze n m` form a perfect maze:
their adjacency graph is a tree — every open cell is reachable from every
other open cell, and between any two open cells there is exactly one
simple path — and the number of open cells is one less than TWICE the
number of lattice cells visited by the carving spanning tree (each visit
beyond the first opens two cells: a destination and an intermediate wall
cell; the claimed count `visited - 1` is wrong). -/
theorem claimC1_amended (n m : ℕ) (rs : ℕ → ℕ) (hn : 5 ≤ n) (hm : 5 ≤ m) :
    (mazeGraph n m (generate_maze n m rs).1).IsTree ∧
    (∀ a b : {c : Pos // c ∈ openCells n m (generate_maze n m rs).1},
      (mazeGraph n m (generate_maze n m rs).1).Reachable a b) ∧
    (∀ a b : {c : Pos // c ∈ openCells n m (generate_maze n m rs).1},
      ∃! p : (mazeGraph n m (generate_maze n m rs).1).Walk a b, p.IsPath) ∧
    (openCells n m (generate_maze n m rs).1).card + 1
      = 2 * (generate_maze n m rs).2 := by
  obtain ⟨s₀, par, dp, hinv, hcard⟩ := generate_maze_spec n m rs hn hm
  have htree := mazeGraph_isTree hinv
  have htree2 := SimpleGraph.isTree_iff_existsUnique_path.mp htree
  exact ⟨htree, fun a b => htree.isConnected.preconnected a b, htree2.2, hcard⟩

/-- Claim C1, counterexample to the literal open-cell count: in the 5×5
maze generated with the all-zero random stream, 7 cells are open while the
carving visits 4 lattice cells, and 7 ≠ 4 - 1 (the spanning tree's node
count relates to the open count by 7 = 2·4 - 1 instead: the intermediate
wall cells opened by each carve are open cells too). -/
theorem claimC1_counterexample :
    (openCells 5 5 (generate_maze 5 5 (fun _ => 0)).1).card = 7 ∧
    (generate_maze 5 5 (fun _ => 0)).2 = 4 ∧
    (openCells 5 5 (generate_maze 5 5 (fun _ => 0)).1).card
      ≠ (generate_maze 5 5 (fun _ => 0)).2 - 1 :=
  ⟨by decide, by decide, by decide⟩

/-- Witness for `claimC1_amended` at `n = m = 5` with the all-zero
random stream. -/
theorem claimC1_witness :
    5 ≤ 5 ∧
    ((mazeGraph 5 5 (generate_maze 5 5 (fun _ => 0)).1).IsTree ∧
     (∀ a b : {c : Pos // c ∈ openCells 5 5 (generate_maze 5 5 (fun _ => 0)).1},
       (mazeGraph 5 5 (generate_maze 5 5 (fun _ => 0)).1).Reachable a b) ∧
     (∀ a b : {c : Pos // c ∈ openCells 5 5 (generate_maze 5 5 (fun _ => 0)).1},
       ∃! p : (mazeGraph 5 5 (generate_maze 5 5 (fun _ => 0)).1).Walk a b,
         p.IsPath) ∧
     (openCells 5 5 (generate_maze 5 5 (fun _ => 0)).1).card + 1
       = 2 * (generate_maze 5 5 (fun _ => 0)).2) :=
  ⟨by decide, claimC1_amended 5 5 (fun _ => 0) (by decide) (by decide)⟩
